import Mathlib

/-!
A shallow embedding of `miniflow.py`, a minimal computation-graph engine.

Nodes are identified by natural numbers; the mutable object heap of the
Python program is modelled as a total function `World : Nat → NodeData`.
A `NodeData` record carries the fields of the Python `Node` object:
the behaviour tag (`kind`, standing for the Python class of the object),
the ordered `inbound` list (`inbound_nodes`), the ordered `outbound`
list (`outbound_nodes`, ordered because Python lists preserve append
order), and the mutable `value` slot (`Option` because the slot starts
as `None`).

Numeric values are modelled as `Int`.  The `Linear` and `Sigmoid`
variants delegate their arithmetic to the external tensor-math provider
(numpy), which the specification places outside the system boundary;
none of the claims under verification concern them, so the embedded
`Kind` covers the base class, `Input` and `Add`.

The two loops of `topological_sort` are modelled with explicit fuel,
because the discovery loop of the source does not terminate on cyclic
graphs (every pop of a node unconditionally re-appends all of its
successors).  A result of `none` means the fuel was exhausted, i.e. the
Python program is still running; `some (Except.error e)` models an
uncaught Python exception; `some (Except.ok r)` a normal return.
The arbitrary element drawn by the Python `set.pop()` in the drain loop
is modelled by an explicit choice function `pick`, quantified over in
the theorems so that every tie-breaking strategy is covered.
-/

namespace Miniflow

/-- Numeric values flowing through the graph. -/
abbrev Val := Int

/-- The Python class of a node object (dynamic dispatch tag). -/
inductive Kind where
  | base
  | input
  | add
deriving DecidableEq, Repr

/-- The fields of one Python `Node` object. -/
structure NodeData where
  kind : Kind
  inbound : List Nat
  outbound : List Nat
  value : Option Val
deriving DecidableEq, Repr

/-- The mutable object heap: every identifier maps to a node record. -/
abbrev World := Nat → NodeData

/-- A heap of inert, untouched node records. -/
def baseWorld : World := fun _ => ⟨Kind.base, [], [], none⟩

/-- Write the `value` slot of node `i` (the only mutation `forward`
performs). -/
def setValue (w : World) (i : Nat) (v : Option Val) : World :=
  fun x => if x = i then { w x with value := v } else w x

/-- `p.outbound_nodes.append(i)`. -/
def appendOutbound (w : World) (p i : Nat) : World :=
  fun x => if x = p then { w x with outbound := (w x).outbound ++ [i] } else w x

/-- `Node.__init__` (lines 3-13 of the source): record the inbound list
verbatim, start with an empty outbound list and an empty value slot, and
append a back-reference to the new node into the outbound list of each
inbound node, in order. -/
def initNode (w : World) (i : Nat) (k : Kind) (preds : List Nat) : World :=
  let w1 : World := fun x => if x = i then ⟨k, preds, [], none⟩ else w x
  preds.foldl (fun acc p => appendOutbound acc p i) w1

/-- The exceptions the embedded operations can raise. -/
inductive Err where
  /-- `raise NotImplemented` in `Node.forward`. -/
  | notImplemented
  /-- `KeyError` from `feed_dict[n]` in the drain loop. -/
  | keyErrorFeed
  /-- `KeyError` from `set.remove` (or a missing `G` key) in the drain loop. -/
  | keyErrorRemove
  /-- `TypeError` from adding a missing (`None`) operand. -/
  | typeError
  /-- `IndexError` from reading a missing inbound node. -/
  | indexError
deriving DecidableEq, Repr

/-- `Input.forward(value=None)` (lines 38-41): overwrite the value slot
only when a value is passed in. -/
def inputForward (w : World) (i : Nat) (value : Option Val) : World :=
  match value with
  | some v => setValue w i (some v)
  | none => w

/-- `Add.forward` (lines 48-54): read the first two inbound nodes and
store the sum of their values. -/
def addForward (w : World) (i : Nat) : Except Err World :=
  match (w i).inbound with
  | x :: y :: _ =>
    match (w x).value, (w y).value with
    | some xv, some yv => Except.ok (setValue w i (some (xv + yv)))
    | _, _ => Except.error Err.typeError
  | _ => Except.error Err.indexError

/-- `n.forward()` with dynamic dispatch on the class of `n`; the base
class raises (lines 16-22). -/
def forward (w : World) (i : Nat) : Except Err World :=
  match (w i).kind with
  | Kind.base => Except.error Err.notImplemented
  | Kind.input => Except.ok (inputForward w i none)
  | Kind.add => addForward w i

instance {ε α : Type} [DecidableEq ε] [DecidableEq α] : DecidableEq (Except ε α) := by
  intro a b
  cases a <;> cases b
  case error.error e1 e2 => exact decidable_of_iff (e1 = e2) (by simp)
  case ok.ok a1 a2 => exact decidable_of_iff (a1 = a2) (by simp)
  all_goals exact isFalse (by simp)

/-- The feed dictionary, as its (key, value) association list. -/
abbrev Feed := List (Nat × Val)

/-- `feed_dict[n]` as a partial lookup. -/
def lookupFeed (feed : Feed) (n : Nat) : Option Val :=
  (feed.find? (fun p => p.1 == n)).map Prod.snd

/-- The bookkeeping dictionary `G` of `topological_sort`: its key set
and, per node, the `'in'` and `'out'` edge sets. -/
structure GState where
  dom : Finset Nat
  ins : Nat → Finset Nat
  outs : Nat → Finset Nat

/-- `G = {}`. -/
def GState.empty : GState := ⟨∅, fun _ => ∅, fun _ => ∅⟩

/-- `G[n] = {'in': set(), 'out': set()}`. -/
def GState.addKey (G : GState) (n : Nat) : GState :=
  { dom := insert n G.dom,
    ins := fun x => if x = n then ∅ else G.ins x,
    outs := fun x => if x = n then ∅ else G.outs x }

/-- `G[n]['out'].add(m)`. -/
def GState.addOut (G : GState) (n m : Nat) : GState :=
  { G with outs := fun x => if x = n then insert m (G.outs n) else G.outs x }

/-- `G[m]['in'].add(n)`. -/
def GState.addIn (G : GState) (m n : Nat) : GState :=
  { G with ins := fun x => if x = m then insert n (G.ins m) else G.ins x }

/-- `G[n]['out'].remove(m)`: a `KeyError` if the key or the element is
missing. -/
def GState.removeOut (G : GState) (n m : Nat) : Except Err GState :=
  if n ∈ G.dom then
    if m ∈ G.outs n then
      Except.ok { G with outs := fun x => if x = n then (G.outs n).erase m else G.outs x }
    else Except.error Err.keyErrorRemove
  else Except.error Err.keyErrorRemove

/-- `G[m]['in'].remove(n)`: a `KeyError` if the key or the element is
missing. -/
def GState.removeIn (G : GState) (m n : Nat) : Except Err GState :=
  if m ∈ G.dom then
    if n ∈ G.ins m then
      Except.ok { G with ins := fun x => if x = m then (G.ins m).erase n else G.ins x }
    else Except.error Err.keyErrorRemove
  else Except.error Err.keyErrorRemove

/-- The body of `for m in n.outbound_nodes` in the discovery loop
(lines 121-126): register the successor, both edge directions, and the
unconditional re-queueing of `m`. -/
def discoverStep (n : Nat) (acc : GState × List Nat) (m : Nat) : GState × List Nat :=
  let G0 := acc.1
  let G1 := if m ∈ G0.dom then G0 else G0.addKey m
  let G2 := G1.addOut n m
  let G3 := G2.addIn m n
  (G3, acc.2 ++ [m])

/-- The discovery loop (lines 116-126): pop the queue head, register it,
then walk its outbound list.  `none` models non-termination within the
given fuel; every recursive call consumes one unit per pop. -/
def discover (w : World) : Nat → List Nat → GState → Option GState
  | 0, q, G =>
    match q with
    | [] => some G
    | _ :: _ => none
  | fuel + 1, q, G =>
    match q with
    | [] => some G
    | n :: rest =>
      let G1 := if n ∈ G.dom then G else G.addKey n
      let res := (w n).outbound.foldl (discoverStep n) (G1, [])
      discover w fuel (rest ++ res.2) res.1

/-- The body of `for m in n.outbound_nodes` in the drain loop
(lines 137-142): remove both directions of the edge, then enqueue `m`
when its remaining-incoming set has emptied. -/
def processSuccs (n : Nat) : List Nat → GState → Finset Nat → Except Err (GState × Finset Nat)
  | [], G, S => Except.ok (G, S)
  | m :: ms, G, S => do
    let G ← G.removeOut n m
    let G ← G.removeIn m n
    let S := if (G.ins m).card = 0 then insert m S else S
    processSuccs n ms G S

/-- Lines 133-134 of the drain loop: when the drawn node is an `Input`,
overwrite its value slot with `feed_dict[n]` (a `KeyError` when the node
is not a key of the feed). -/
def feedStep (feed : Feed) (w : World) (n : Nat) : Except Err World :=
  if (w n).kind = Kind.input then
    match lookupFeed feed n with
    | some v => Except.ok (setValue w n (some v))
    | none => Except.error Err.keyErrorFeed
  else Except.ok w

/-- The drain loop (lines 128-143): while `S` is nonempty, draw an
arbitrary element (modelled by `pick`), feed it if it is an `Input`,
append it to the output order and release its outbound edges. -/
def drain (pick : Finset Nat → Nat) (w0feed : Feed) :
    Nat → Finset Nat → GState → World → List Nat →
    Option (Except Err (List Nat × World))
  | 0, S, _, w, L =>
    if S.card = 0 then some (Except.ok (L, w)) else none
  | fuel + 1, S, G, w, L =>
    if S.card = 0 then some (Except.ok (L, w))
    else
      let n := pick S
      let S1 := S.erase n
      match feedStep w0feed w n with
      | Except.error e => some (Except.error e)
      | Except.ok w1 =>
        let L1 := L ++ [n]
        match processSuccs n ((w1 n).outbound) G S1 with
        | Except.error e => some (Except.error e)
        | Except.ok (G1, S2) => drain pick w0feed fuel S2 G1 w1 L1

/-- `topological_sort(feed_dict)` (lines 104-143): discover the graph
reachable from the fed input nodes, then drain the ready set.  `fuel1`
bounds the discovery pops, `fuel2` the drain iterations. -/
def topological_sort (pick : Finset Nat → Nat) (w : World) (feed : Feed)
    (fuel1 fuel2 : Nat) : Option (Except Err (List Nat × World)) :=
  let input_nodes := feed.map Prod.fst
  match discover w fuel1 input_nodes GState.empty with
  | none => none
  | some G => drain pick feed fuel2 input_nodes.toFinset G w []

/-- `for n in sorted_nodes: n.forward()`. -/
def forwardList (w : World) : List Nat → Except Err World
  | [] => Except.ok w
  | n :: ns => do
    let w1 ← forward w n
    forwardList w1 ns

/-- `forward_pass(output_node, sorted_nodes)` (lines 145-160): run every
forward in order, then return the final heap and the output node's
value slot. -/
def forward_pass (output_node : Nat) (w : World) (sorted_nodes : List Nat) :
    Except Err (World × Option Val) :=
  match forwardList w sorted_nodes with
  | Except.ok w1 => Except.ok (w1, (w1 output_node).value)
  | Except.error e => Except.error e

/-- One whole client run: sort, then forward-pass, projecting out the
returned output value (the heaps are dropped so the result is decidable
to compare). -/
def runGraph (pick : Finset Nat → Nat) (w : World) (feed : Feed)
    (output_node : Nat) (fuel1 fuel2 : Nat) : Option (Except Err (Option Val)) :=
  match topological_sort pick w feed fuel1 fuel2 with
  | none => none
  | some (Except.error e) => some (Except.error e)
  | some (Except.ok (L, w1)) =>
    match forward_pass output_node w1 L with
    | Except.error e => some (Except.error e)
    | Except.ok (_, v) => some (Except.ok v)

/-- A concrete tie-breaking choice for `set.pop()`: the least element. -/
def pickMin (s : Finset Nat) : Nat :=
  if h : s.Nonempty then s.min' h else 0

/-- The successor-edge relation the sorter traverses: `b` occurs in the
outbound list of `a`. -/
def edge (w : World) (a b : Nat) : Prop := b ∈ (w a).outbound

instance (w : World) (a b : Nat) : Decidable (edge w a b) :=
  inferInstanceAs (Decidable (b ∈ (w a).outbound))

/-- Reachability from a root list by following successor links;
the "graph" of the specification is exactly this set. -/
def ReachableFrom (w : World) (roots : List Nat) (n : Nat) : Prop :=
  ∃ r ∈ roots, Relation.ReflTransGen (edge w) r n

/-- Acyclicity of the subgraph reachable from `roots`. -/
def AcyclicOn (w : World) (roots : List Nat) : Prop :=
  ∀ n, ReachableFrom w roots n → ¬ Relation.TransGen (edge w) n n

/-! ### Concrete graphs used as witnesses -/

/-- The scenario graph of the specification, partially built:
`Input a` (node 0) and `Input b` (node 1). -/
def demoW01 : World := initNode (initNode baseWorld 0 Kind.input []) 1 Kind.input []

/-- The scenario graph of the specification: `Input a` (node 0),
`Input b` (node 1), `Add(a, b)` (node 2), built through the constructor. -/
def demoW : World := initNode demoW01 2 Kind.add [0, 1]

/-- The scenario feed: a ↦ 5, b ↦ 10. -/
def demoFeed : Feed := [(0, 5), (1, 10)]

/-- A graph with a duplicated predecessor: `Add(a, a)` (node 1) lists
`Input a` (node 0) twice, so node 0's outbound list is `[1, 1]`. -/
def dupW : World := initNode (initNode baseWorld 0 Kind.input []) 1 Kind.add [0, 0]

/-- A cyclic graph: input node 0 feeds node 1, and nodes 1 and 2 form a
two-cycle (1 → 2 → 1).  The records are wired directly, the way a client
mutating the edge lists by hand would, since `Node.__init__` alone
cannot close a cycle. -/
def cycW : World := fun x =>
  if x = 0 then ⟨Kind.input, [], [1], none⟩
  else if x = 1 then ⟨Kind.add, [0, 2], [2], none⟩
  else if x = 2 then ⟨Kind.add, [1], [1], none⟩
  else ⟨Kind.base, [], [], none⟩

/-! ### Structure-preservation (frame) lemmas: every operation other
than construction leaves `kind`, `inbound` and `outbound` untouched. -/

/-- Two heaps that agree on everything but the value slots. -/
def SameStruct (w1 w2 : World) : Prop :=
  ∀ x, (w1 x).kind = (w2 x).kind ∧ (w1 x).inbound = (w2 x).inbound ∧
    (w1 x).outbound = (w2 x).outbound

lemma sameStruct_refl (w : World) : SameStruct w w := fun _ => ⟨rfl, rfl, rfl⟩

lemma SameStruct.trans {w1 w2 w3 : World} (h12 : SameStruct w1 w2)
    (h23 : SameStruct w2 w3) : SameStruct w1 w3 := by
  intro x
  exact ⟨(h12 x).1.trans (h23 x).1, (h12 x).2.1.trans (h23 x).2.1,
    (h12 x).2.2.trans (h23 x).2.2⟩

lemma setValue_sameStruct (w : World) (i : Nat) (v : Option Val) :
    SameStruct (setValue w i v) w := by
  intro x
  unfold setValue
  by_cases h : x = i <;> simp [h]

lemma setValue_apply_ne (w : World) (i : Nat) (v : Option Val) (x : Nat)
    (h : x ≠ i) : (setValue w i v) x = w x := by
  unfold setValue; simp [h]

lemma setValue_apply_self (w : World) (i : Nat) (v : Option Val) :
    (setValue w i v) i = { w i with value := v } := by
  unfold setValue; simp

lemma inputForward_sameStruct (w : World) (i : Nat) (v : Option Val) :
    SameStruct (inputForward w i v) w := by
  cases v with
  | none => exact sameStruct_refl w
  | some u => exact setValue_sameStruct w i (some u)

lemma addForward_ok {w w' : World} {i : Nat} (h : addForward w i = Except.ok w') :
    ∃ x y rest xv yv, (w i).inbound = x :: y :: rest ∧ (w x).value = some xv ∧
      (w y).value = some yv ∧ w' = setValue w i (some (xv + yv)) := by
  unfold addForward at h
  split at h
  case h_1 x y tail hin =>
    split at h
    case h_1 xv yv hx hy =>
      refine ⟨x, y, tail, xv, yv, hin, hx, hy, ?_⟩
      cases h
      rfl
    case h_2 => cases h
  case h_2 => cases h

lemma forward_ok_cases {w w' : World} {i : Nat} (h : forward w i = Except.ok w') :
    ((w i).kind = Kind.input ∧ w' = w) ∨
    ((w i).kind = Kind.add ∧ addForward w i = Except.ok w') := by
  unfold forward at h
  rcases hk : (w i).kind <;> rw [hk] at h
  · exact absurd h (by simp)
  · refine Or.inl ⟨rfl, ?_⟩
    simp [inputForward] at h
    exact h.symm
  · exact Or.inr ⟨rfl, h⟩

lemma forward_sameStruct {w w' : World} {i : Nat} (h : forward w i = Except.ok w') :
    SameStruct w' w := by
  rcases forward_ok_cases h with ⟨_, h⟩ | ⟨_, h⟩
  · exact h ▸ sameStruct_refl w
  · obtain ⟨x, y, rest, xv, yv, _, _, _, hw⟩ := addForward_ok h
    exact hw ▸ setValue_sameStruct w i _

lemma forward_frame {w w' : World} {i : Nat} (h : forward w i = Except.ok w') :
    ∀ x, x ≠ i → w' x = w x := by
  intro x hx
  rcases forward_ok_cases h with ⟨_, h⟩ | ⟨_, h⟩
  · rw [h]
  · obtain ⟨a, b, rest, xv, yv, _, _, _, hw⟩ := addForward_ok h
    rw [hw, setValue_apply_ne w i _ x hx]

lemma forwardList_sameStruct {L : List Nat} :
    ∀ {w w' : World}, forwardList w L = Except.ok w' → SameStruct w' w := by
  induction L with
  | nil =>
    intro w w' h
    simp [forwardList] at h
    exact h ▸ sameStruct_refl w
  | cons n ns ih =>
    intro w w' h
    simp only [forwardList, bind, Except.bind] at h
    rcases hf : forward w n with e | w1 <;> rw [hf] at h
    · exact absurd h (by simp)
    · exact (ih h).trans (forward_sameStruct hf)

/-- Inversion of one successful iteration of the drain loop. -/
lemma drain_ok_inv {pick : Finset Nat → Nat} {feed : Feed} {fuel : Nat}
    {S : Finset Nat} {G : GState} {w : World} {L L' : List Nat} {w' : World}
    (hS : ¬ S.card = 0)
    (h : drain pick feed (fuel + 1) S G w L = some (Except.ok (L', w'))) :
    ∃ w1 G1 S2, feedStep feed w (pick S) = Except.ok w1 ∧
      processSuccs (pick S) ((w1 (pick S)).outbound) G (S.erase (pick S)) =
        Except.ok (G1, S2) ∧
      drain pick feed fuel S2 G1 w1 (L ++ [pick S]) = some (Except.ok (L', w')) := by
  unfold drain at h
  rw [if_neg hS] at h
  simp only [] at h
  rcases hf : feedStep feed w (pick S) with e | w1 <;> rw [hf] at h <;>
    simp only [] at h
  · exact absurd h (by simp)
  · rcases hps : processSuccs (pick S) ((w1 (pick S)).outbound) G (S.erase (pick S)) with
      e | ⟨G1, S2⟩ <;> rw [hps] at h <;> simp only [] at h
    · exact absurd h (by simp)
    · exact ⟨w1, G1, S2, rfl, hps, h⟩

/-- A successful drain with no fuel, or with an empty ready set, returns
its accumulators unchanged. -/
lemma drain_empty_inv {pick : Finset Nat → Nat} {feed : Feed} {fuel : Nat}
    {S : Finset Nat} {G : GState} {w : World} {L L' : List Nat} {w' : World}
    (hS : S.card = 0)
    (h : drain pick feed fuel S G w L = some (Except.ok (L', w'))) :
    L' = L ∧ w' = w := by
  cases fuel <;> unfold drain at h <;> rw [if_pos hS] at h <;>
    simp at h <;> exact ⟨h.1.symm, h.2.symm⟩

lemma drain_zero_inv {pick : Finset Nat → Nat} {feed : Feed}
    {S : Finset Nat} {G : GState} {w : World} {L L' : List Nat} {w' : World}
    (h : drain pick feed 0 S G w L = some (Except.ok (L', w'))) :
    S.card = 0 ∧ L' = L ∧ w' = w := by
  by_cases hS : S.card = 0
  · exact ⟨hS, drain_empty_inv hS h⟩
  · unfold drain at h
    rw [if_neg hS] at h
    cases h

lemma feedStep_ok {feed : Feed} {w : World} {n : Nat} {w1 : World}
    (h : feedStep feed w n = Except.ok w1) :
    ((w n).kind = Kind.input ∧ ∃ v, lookupFeed feed n = some v ∧
       w1 = setValue w n (some v)) ∨
    ((w n).kind ≠ Kind.input ∧ w1 = w) := by
  unfold feedStep at h
  by_cases hk : (w n).kind = Kind.input
  · rw [if_pos hk] at h
    rcases hl : lookupFeed feed n with _ | v <;> rw [hl] at h
    · cases h
    · cases h
      exact Or.inl ⟨hk, v, rfl, rfl⟩
  · rw [if_neg hk] at h
    cases h
    exact Or.inr ⟨hk, rfl⟩

lemma feedStep_sameStruct {feed : Feed} {w : World} {n : Nat} {w1 : World}
    (h : feedStep feed w n = Except.ok w1) : SameStruct w1 w := by
  rcases feedStep_ok h with ⟨_, v, _, hw⟩ | ⟨_, hw⟩
  · exact hw ▸ setValue_sameStruct w n (some v)
  · exact hw ▸ sameStruct_refl w

lemma drain_sameStruct {pick : Finset Nat → Nat} {feed : Feed} :
    ∀ {fuel : Nat} {S : Finset Nat} {G : GState} {w : World} {L L' : List Nat}
      {w' : World}, drain pick feed fuel S G w L = some (Except.ok (L', w')) →
      SameStruct w' w := by
  intro fuel
  induction fuel with
  | zero =>
    intro S G w L L' w' h
    exact (drain_zero_inv h).2.2 ▸ sameStruct_refl w
  | succ fuel ih =>
    intro S G w L L' w' h
    by_cases hS : S.card = 0
    · exact (drain_empty_inv hS h).2 ▸ sameStruct_refl w
    · obtain ⟨w1, G1, S2, hf, _, hrec⟩ := drain_ok_inv hS h
      exact (ih hrec).trans (feedStep_sameStruct hf)

lemma topological_sort_sameStruct {pick : Finset Nat → Nat} {w : World}
    {feed : Feed} {fuel1 fuel2 : Nat} {L : List Nat} {w' : World}
    (h : topological_sort pick w feed fuel1 fuel2 = some (Except.ok (L, w'))) :
    SameStruct w' w := by
  unfold topological_sort at h
  simp only [] at h
  rcases hd : discover w fuel1 (feed.map Prod.fst) GState.empty with _ | G <;>
    rw [hd] at h <;> simp only [] at h
  · cases h
  · exact drain_sameStruct h

/-! ### `Node.__init__`: effect on the heap -/

lemma foldl_appendOutbound_not_mem (i : Nat) {preds : List Nat} :
    ∀ (w : World) (q : Nat), q ∉ preds →
      (preds.foldl (fun acc p => appendOutbound acc p i) w) q = w q := by
  induction preds with
  | nil => intro w q _; rfl
  | cons a ps ih =>
    intro w q hq
    rw [List.foldl_cons]
    rw [ih _ q (fun hm => hq (List.mem_cons_of_mem a hm))]
    have hqa : q ≠ a := by
      rintro rfl
      exact hq (List.mem_cons_self q ps)
    unfold appendOutbound
    simp [hqa]

lemma foldl_appendOutbound_mem (i : Nat) {preds : List Nat} (hnd : preds.Nodup) :
    ∀ (w : World) (p : Nat), p ∈ preds →
      (preds.foldl (fun acc p => appendOutbound acc p i) w) p =
        { w p with outbound := (w p).outbound ++ [i] } := by
  induction preds with
  | nil => intro _ _ h; cases h
  | cons a ps ih =>
    intro w p hp
    rw [List.foldl_cons]
    rcases List.mem_cons.mp hp with rfl | hp'
    · rw [foldl_appendOutbound_not_mem i _ p (List.nodup_cons.mp hnd).1]
      unfold appendOutbound
      simp
    · have hpa : p ≠ a := by
        rintro rfl
        exact (List.nodup_cons.mp hnd).1 hp'
      rw [ih (List.nodup_cons.mp hnd).2 _ p hp']
      unfold appendOutbound
      simp [hpa]

lemma initNode_self {w : World} {i : Nat} {k : Kind} {preds : List Nat}
    (hi : i ∉ preds) : (initNode w i k preds) i = ⟨k, preds, [], none⟩ := by
  unfold initNode
  rw [foldl_appendOutbound_not_mem i _ i hi]
  simp

lemma initNode_pred {w : World} {i : Nat} {k : Kind} {preds : List Nat}
    (hnd : preds.Nodup) (hi : i ∉ preds) {p : Nat} (hp : p ∈ preds) :
    (initNode w i k preds) p = { w p with outbound := (w p).outbound ++ [i] } := by
  unfold initNode
  rw [foldl_appendOutbound_mem i hnd _ p hp]
  have hpi : p ≠ i := fun h => hi (h ▸ hp)
  simp [hpi]

lemma initNode_other {w : World} {i : Nat} {k : Kind} {preds : List Nat}
    {q : Nat} (hq : q ∉ preds) (hqi : q ≠ i) : (initNode w i k preds) q = w q := by
  unfold initNode
  rw [foldl_appendOutbound_not_mem i _ q hq]
  simp [hqi]

/-! ### Non-termination of discovery on the cyclic witness graph -/

lemma discoverStep_fold_queue (n : Nat) :
    ∀ (ms : List Nat) (G : GState) (acc : List Nat),
      (ms.foldl (discoverStep n) (G, acc)).2 = acc ++ ms := by
  intro ms
  induction ms with
  | nil => intro G acc; simp
  | cons m ms ih =>
    intro G acc
    rw [List.foldl_cons]
    have hstep : discoverStep n (G, acc) m =
        (((if m ∈ G.dom then G else G.addKey m).addOut n m).addIn m n, acc ++ [m]) := rfl
    rw [hstep, ih]
    simp

lemma cyc_discover_none :
    ∀ (fuel : Nat) (q : List Nat) (G : GState), q ≠ [] → (∀ n ∈ q, n < 3) →
      discover cycW fuel q G = none := by
  intro fuel
  induction fuel with
  | zero =>
    intro q G hq _
    cases q with
    | nil => exact absurd rfl hq
    | cons n rest => rfl
  | succ fuel ih =>
    intro q G hq hlt
    cases q with
    | nil => exact absurd rfl hq
    | cons n rest =>
      unfold discover
      simp only []
      have hn3 : n < 3 := hlt n (List.mem_cons_self n rest)
      have houtb : ∃ m, m < 3 ∧ (cycW n).outbound = [m] := by
        interval_cases n
        · exact ⟨1, by decide, rfl⟩
        · exact ⟨2, by decide, rfl⟩
        · exact ⟨1, by decide, rfl⟩
      obtain ⟨m, hm3, hout⟩ := houtb
      rw [hout, discoverStep_fold_queue]
      apply ih
      · simp
      · intro x hx
        rcases List.mem_append.mp hx with hx' | hx'
        · exact hlt x (List.mem_cons_of_mem n hx')
        · simp at hx'
          exact hx' ▸ hm3

lemma pickMin_mem {s : Finset Nat} (hs : s.Nonempty) : pickMin s ∈ s := by
  unfold pickMin
  rw [dif_pos hs]
  exact s.min'_mem hs

/-! ### Claims C3 to C7 -/

/-- Claim C3: the specification requires the sorter to signal an explicit
structural error on a cyclic reachable subgraph and never to return a
silently truncated order.  The source does neither: on the cyclic witness
graph its discovery loop re-queues the cycle members forever, so for every
fuel bound the run is still in flight (`none`): no error is ever raised
and no (truncated or other) list is ever returned.  This confirms the
divergence recorded for the claim; the claim itself describes intended,
not implemented, behaviour. -/
theorem cyclic_sort_never_returns (pick : Finset Nat → Nat) (f1 f2 : Nat) :
    topological_sort pick cycW [(0, 5)] f1 f2 = none := by
  unfold topological_sort
  simp only []
  have h0 : (([(0, 5)] : Feed).map Prod.fst) = [0] := rfl
  rw [h0, cyc_discover_none f1 [0] GState.empty (by simp) (by decide)]

/-- Effect of the back-reference fold of `Node.__init__` on an arbitrary
node `p`: one copy of `i` is appended to `p`'s outbound list per
occurrence of `p` in the predecessor sequence (for `p` outside the
sequence the count is zero and the record is unchanged). -/
lemma foldl_appendOutbound_count (i : Nat) :
    ∀ (preds : List Nat) (w : World) (p : Nat),
      (preds.foldl (fun acc q => appendOutbound acc q i) w) p =
        { w p with outbound := (w p).outbound ++ List.replicate (preds.count p) i } := by
  intro preds
  induction preds with
  | nil =>
    intro w p
    simp
  | cons a ps ih =>
    intro w p
    rw [List.foldl_cons, ih]
    by_cases hpa : p = a
    · subst hpa
      have h1 : appendOutbound w p i p = { w p with outbound := (w p).outbound ++ [i] } := by
        unfold appendOutbound
        simp
      rw [h1, List.count_cons_self]
      simp [List.replicate_succ, List.append_assoc]
    · have h1 : appendOutbound w a i p = w p := by
        unfold appendOutbound
        simp [hpa]
      rw [h1, List.count_cons_of_ne hpa]

/-- Claim C4, counterexample: constructing `Add(a, a)` — node 1 with
predecessor sequence `[0, 0]`, the heap `dupW` — appends TWO
back-references to node 0's successor collection for the single
(predecessor, new-node) pair (0, 1): the successor list becomes
`[1, 1]`, not the old list extended by one `1`.  "Exactly one
back-reference per pair" therefore fails on the code whenever a
predecessor is listed more than once. -/
theorem node_construction_dup_cx :
    (dupW 0).outbound = [1, 1] ∧
    ((dupW 0).outbound).count 1 = 2 ∧
    ¬ (dupW 0).outbound = ((initNode baseWorld 0 Kind.input []) 0).outbound ++ [1] :=
  ⟨by decide, by decide, by decide⟩

/-- Claim C4 (amended): constructing node `i` over an ordered
predecessor sequence synchronously appends one back-reference to `i` at
the end of a predecessor's successor list per occurrence of that
predecessor in the sequence — so exactly one per (predecessor, new-node)
pair when the sequence has no duplicates, and one per duplicate entry
otherwise — changes nothing else on any other node, records the
predecessors verbatim, and is the only operation that ever extends a
successor list: `forward`, the forward pass and the sorter all preserve
every node's outbound list. -/
theorem node_construction_appends_occurrences (w : World) (i : Nat) (k : Kind)
    (preds : List Nat) (hi : i ∉ preds) :
    (∀ p, p ≠ i → (initNode w i k preds) p =
       { w p with outbound := (w p).outbound ++ List.replicate (preds.count p) i }) ∧
    ((initNode w i k preds) i = ⟨k, preds, [], none⟩) ∧
    (preds.Nodup → ∀ p ∈ preds,
       ((initNode w i k preds) p).outbound = (w p).outbound ++ [i]) ∧
    (∀ (w1 w2 : World) (j : Nat), forward w1 j = Except.ok w2 →
       ∀ x, (w2 x).outbound = (w1 x).outbound) ∧
    (∀ (w1 w2 : World) (L : List Nat), forwardList w1 L = Except.ok w2 →
       ∀ x, (w2 x).outbound = (w1 x).outbound) ∧
    (∀ (pick : Finset Nat → Nat) (w1 : World) (feed : Feed) (f1 f2 : Nat)
       (L : List Nat) (w2 : World),
       topological_sort pick w1 feed f1 f2 = some (Except.ok (L, w2)) →
       ∀ x, (w2 x).outbound = (w1 x).outbound) := by
  refine ⟨?_, initNode_self hi, fun hnd p hp => by rw [initNode_pred hnd hi hp],
    fun w1 w2 j h x => ((forward_sameStruct h) x).2.2,
    fun w1 w2 L h x => ((forwardList_sameStruct h) x).2.2,
    fun pick w1 feed f1 f2 L w2 h x => ((topological_sort_sameStruct h) x).2.2⟩
  intro p hpi
  unfold initNode
  rw [foldl_appendOutbound_count]
  simp [hpi]

/-- Claim C4 (amended), witnessed on the duplicate-predecessor
construction `Add(a, a)` itself: the back-reference to node 1 is
appended once per occurrence of predecessor 0, i.e. twice. -/
theorem node_construction_appends_occurrences_w :
    (1 : Nat) ∉ ([0, 0] : List Nat) ∧
    (initNode (initNode baseWorld 0 Kind.input []) 1 Kind.add [0, 0]) 0 =
      { (initNode baseWorld 0 Kind.input []) 0 with
        outbound := ((initNode baseWorld 0 Kind.input []) 0).outbound ++
          List.replicate (([0, 0] : List Nat).count 0) 1 } :=
  ⟨by decide,
   (node_construction_appends_occurrences (initNode baseWorld 0 Kind.input [])
     1 Kind.add [0, 0] (by decide)).1 0 (by decide)⟩

/-- Claim C5: `Input.forward` with a supplied value overwrites the value
slot with it; with the value omitted it leaves the whole heap — in
particular the value slot — untouched. -/
theorem input_forward_value (w : World) (i : Nat) (u : Val) :
    ((inputForward w i (some u)) i).value = some u ∧
    inputForward w i none = w ∧
    ((inputForward w i none) i).value = (w i).value := by
  refine ⟨?_, rfl, rfl⟩
  show ((setValue w i (some u)) i).value = some u
  rw [setValue_apply_self]

/-- Claim C6: invoking `forward` on a node of the base class raises the
"not implemented" signal; no heap is returned, so no value slot is
written. -/
theorem base_forward_raises (w : World) (i : Nat) (h : (w i).kind = Kind.base) :
    forward w i = Except.error Err.notImplemented := by
  unfold forward
  rw [h]

/-- Claim C6, witnessed on a fresh base-class node. -/
theorem base_forward_raises_w :
    (baseWorld 0).kind = Kind.base ∧
    forward baseWorld 0 = Except.error Err.notImplemented :=
  ⟨rfl, base_forward_raises baseWorld 0 rfl⟩

/-- Claim C7: `Add.forward` writes the sum of the values of its first
two predecessors into its own value slot, and on the specification
scenario (`Input a` fed 5, `Input b` fed 10, `Add(a, b)` as output) the
sort followed by the forward pass returns 15. -/
theorem add_forward_sum (w : World) (i x y : Nat) (rest : List Nat) (xv yv : Val)
    (hin : (w i).inbound = x :: y :: rest)
    (hx : (w x).value = some xv) (hy : (w y).value = some yv) :
    addForward w i = Except.ok (setValue w i (some (xv + yv))) ∧
    ((setValue w i (some (xv + yv))) i).value = some (xv + yv) ∧
    runGraph pickMin demoW demoFeed 2 6 6 = some (Except.ok (some 15)) := by
  refine ⟨?_, by rw [setValue_apply_self], by decide⟩
  unfold addForward
  rw [hin]
  simp only []
  rw [hx, hy]

/-- Claim C7, witnessed on the scenario graph with the inputs already
fed: running `Add.forward` on node 2 stores 5 + 10. -/
theorem add_forward_sum_w :
    addForward (setValue (setValue demoW 0 (some 5)) 1 (some 10)) 2 =
      Except.ok (setValue (setValue (setValue demoW 0 (some 5)) 1 (some 10)) 2
        (some (5 + 10))) :=
  (add_forward_sum (setValue (setValue demoW 0 (some 5)) 1 (some 10)) 2 0 1 [] 5 10
    (by decide) (by decide) (by decide)).1

/-! ### The discovery loop: invariant and final characterisation -/

/-- Invariant of the discovery loop, relating the bookkeeping dictionary
`G` to the still-pending queue `q`. -/
structure DiscInv (w : World) (roots : List Nat) (q : List Nat) (G : GState) : Prop where
  roots_ok : ∀ r ∈ roots, r ∈ G.dom ∨ r ∈ q
  dom_pending : ∀ n ∈ G.dom,
    (G.outs n = (w n).outbound.toFinset ∧
     ∀ m ∈ (w n).outbound, m ∈ G.dom ∧ n ∈ G.ins m) ∨ n ∈ q
  outs_sub : ∀ n, G.outs n ⊆ (w n).outbound.toFinset
  ins_sub : ∀ m p, p ∈ G.ins m → p ∈ G.dom ∧ m ∈ (w p).outbound
  outs_out : ∀ n, n ∉ G.dom → G.outs n = ∅
  ins_out : ∀ n, n ∉ G.dom → G.ins n = ∅
  reach : ∀ n, n ∈ G.dom ∨ n ∈ q → ReachableFrom w roots n

/-- What the finished discovery phase guarantees about `G`. -/
structure DiscSpec (w : World) (roots : List Nat) (G : GState) : Prop where
  roots_dom : ∀ r ∈ roots, r ∈ G.dom
  closed : ∀ n ∈ G.dom, ∀ m ∈ (w n).outbound, m ∈ G.dom
  outs_eq : ∀ n ∈ G.dom, G.outs n = (w n).outbound.toFinset
  ins_eq : ∀ m, G.ins m = G.dom.filter (fun p => m ∈ (w p).outbound)
  dom_reach : ∀ n ∈ G.dom, ReachableFrom w roots n

lemma discInv_init (w : World) (roots : List Nat) :
    DiscInv w roots roots GState.empty := by
  refine ⟨fun r hr => Or.inr hr, ?_, ?_, ?_, fun _ _ => rfl, fun _ _ => rfl, ?_⟩
  · intro n hn
    exact absurd hn (by simp [GState.empty])
  · intro n
    simp [GState.empty]
  · intro m p hp
    exact absurd hp (by simp [GState.empty])
  · intro n hn
    rcases hn with hn | hn
    · exact absurd hn (by simp [GState.empty])
    · exact ⟨n, hn, Relation.ReflTransGen.refl⟩

lemma discSpec_of_inv {w : World} {roots : List Nat} {G : GState}
    (h : DiscInv w roots [] G) : DiscSpec w roots G := by
  have hproc : ∀ n ∈ G.dom, G.outs n = (w n).outbound.toFinset ∧
      ∀ m ∈ (w n).outbound, m ∈ G.dom ∧ n ∈ G.ins m := by
    intro n hn
    exact (h.dom_pending n hn).resolve_right (by simp)
  refine ⟨?_, ?_, ?_, ?_, ?_⟩
  · intro r hr
    exact (h.roots_ok r hr).resolve_right (by simp)
  · intro n hn m hm
    exact ((hproc n hn).2 m hm).1
  · intro n hn
    exact (hproc n hn).1
  · intro m
    ext p
    simp only [Finset.mem_filter]
    constructor
    · exact h.ins_sub m p
    · intro ⟨hp, hmp⟩
      exact ((hproc p hp).2 m hmp).2
  · intro n hn
    exact h.reach n (Or.inl hn)

lemma reach_sub_dom {w : World} {roots : List Nat} {G : GState}
    (spec : DiscSpec w roots G) : ∀ n, ReachableFrom w roots n → n ∈ G.dom := by
  intro n ⟨r, hr, hrtg⟩
  induction hrtg with
  | refl => exact spec.roots_dom r hr
  | tail _ he ih => exact spec.closed _ ih _ he

/-- Effect of the inner `for m in n.outbound_nodes` fold of the
discovery loop on the bookkeeping state. -/
lemma discoverStep_fold_G (n : Nat) :
    ∀ (ms : List Nat) (G : GState) (acc : List Nat),
      n ∈ G.dom →
      (∀ x, x ∉ G.dom → G.outs x = ∅ ∧ G.ins x = ∅) →
      (ms.foldl (discoverStep n) (G, acc)).1.dom = G.dom ∪ ms.toFinset ∧
      ((ms.foldl (discoverStep n) (G, acc)).1.outs n = G.outs n ∪ ms.toFinset) ∧
      (∀ x, x ≠ n → (ms.foldl (discoverStep n) (G, acc)).1.outs x = G.outs x) ∧
      (∀ x, x ∈ ms → (ms.foldl (discoverStep n) (G, acc)).1.ins x = insert n (G.ins x)) ∧
      (∀ x, x ∉ ms → (ms.foldl (discoverStep n) (G, acc)).1.ins x = G.ins x) := by
  intro ms
  induction ms with
  | nil =>
    intro G acc _ _
    refine ⟨by simp, by simp, fun _ _ => rfl, ?_, fun _ _ => rfl⟩
    intro x hx
    cases hx
  | cons m ms ih =>
    intro G acc hn hout
    rw [List.foldl_cons]
    have hstep : discoverStep n (G, acc) m =
        (((if m ∈ G.dom then G else G.addKey m).addOut n m).addIn m n, acc ++ [m]) := rfl
    rw [hstep]
    set G1 := (if m ∈ G.dom then G else G.addKey m) with hG1
    set G3 := (G1.addOut n m).addIn m n with hG3
    have hnm : n ≠ m ∨ m ∈ G.dom := by
      by_cases h : m ∈ G.dom
      · exact Or.inr h
      · exact Or.inl (fun he => h (he ▸ hn))
    have hG1dom : G1.dom = insert m G.dom := by
      rw [hG1]
      by_cases h : m ∈ G.dom <;> simp [h, GState.addKey]
    have hG1outs : ∀ x, G1.outs x = G.outs x := by
      intro x
      rw [hG1]
      by_cases h : m ∈ G.dom
      · simp [h]
      · simp only [h, if_false, GState.addKey]
        by_cases hxm : x = m
        · subst hxm
          exact ((hout x h).1 ▸ (by simp))
        · simp [hxm]
    have hG1ins : ∀ x, G1.ins x = G.ins x := by
      intro x
      rw [hG1]
      by_cases h : m ∈ G.dom
      · simp [h]
      · simp only [h, if_false, GState.addKey]
        by_cases hxm : x = m
        · subst hxm
          exact ((hout x h).2 ▸ (by simp))
        · simp [hxm]
    have hG3dom : G3.dom = insert m G.dom := by
      rw [hG3]
      simp [GState.addOut, GState.addIn, hG1dom]
    have hG3outs_n : G3.outs n = insert m (G.outs n) := by
      rw [hG3]
      simp [GState.addOut, GState.addIn, hG1outs]
    have hG3outs : ∀ x, x ≠ n → G3.outs x = G.outs x := by
      intro x hx
      rw [hG3]
      simp [GState.addOut, GState.addIn, hx, hG1outs]
    have hG3ins_m : G3.ins m = insert n (G.ins m) := by
      rw [hG3]
      simp [GState.addOut, GState.addIn, hG1ins]
    have hG3ins : ∀ x, x ≠ m → G3.ins x = G.ins x := by
      intro x hx
      rw [hG3]
      simp [GState.addOut, GState.addIn, hx, hG1ins]
    have hn3 : n ∈ G3.dom := by
      rw [hG3dom]
      exact Finset.mem_insert_of_mem hn
    have hout3 : ∀ x, x ∉ G3.dom → G3.outs x = ∅ ∧ G3.ins x = ∅ := by
      intro x hx
      rw [hG3dom] at hx
      have hxm : x ≠ m := fun h => hx (h ▸ Finset.mem_insert_self m G.dom)
      have hxd : x ∉ G.dom := fun h => hx (Finset.mem_insert_of_mem h)
      have hxn : x ≠ n := fun h => hxd (h ▸ hn)
      exact ⟨(hG3outs x hxn).trans (hout x hxd).1, (hG3ins x hxm).trans (hout x hxd).2⟩
    obtain ⟨ihdom, ihoutn, ihouts, ihins_mem, ihins_nmem⟩ := ih G3 (acc ++ [m]) hn3 hout3
    refine ⟨?_, ?_, ?_, ?_, ?_⟩
    · rw [ihdom, hG3dom]
      ext x
      simp [or_assoc]
    · rw [ihoutn, hG3outs_n]
      ext x
      simp [or_assoc]
    · intro x hx
      rw [ihouts x hx, hG3outs x hx]
    · intro x hx
      rcases List.mem_cons.mp hx with rfl | hx'
      · by_cases hxms : x ∈ ms
        · rw [ihins_mem x hxms, hG3ins_m]
          ext y
          simp
        · rw [ihins_nmem x hxms, hG3ins_m]
      · rw [ihins_mem x hx']
        by_cases hxm : x = m
        · subst hxm
          rw [hG3ins_m]
          ext y
          simp
        · rw [hG3ins x hxm]
    · intro x hx
      have hxm : x ≠ m := fun h => hx (h ▸ List.mem_cons_self m ms)
      have hxms : x ∉ ms := fun h => hx (List.mem_cons_of_mem m h)
      rw [ihins_nmem x hxms, hG3ins x hxm]

/-- The discovery loop preserves its invariant and, when it terminates,
ends with an empty queue. -/
lemma discover_inv {w : World} {roots : List Nat} :
    ∀ (fuel : Nat) (q : List Nat) (G G' : GState),
      discover w fuel q G = some G' → DiscInv w roots q G →
      DiscInv w roots [] G' := by
  intro fuel
  induction fuel with
  | zero =>
    intro q G G' h hinv
    cases q with
    | nil =>
      injection h with h
      subst h
      exact hinv
    | cons n rest => cases h
  | succ fuel ih =>
    intro q G G' h hinv
    cases q with
    | nil =>
      injection h with h
      subst h
      exact hinv
    | cons n rest =>
      unfold discover at h
      simp only [] at h
      set ms := (w n).outbound with hms
      set G1 := (if n ∈ G.dom then G else G.addKey n) with hG1
      have hG1dom : G1.dom = insert n G.dom := by
        rw [hG1]
        by_cases hd : n ∈ G.dom <;> simp [hd, GState.addKey]
      have hG1outs : ∀ x, G1.outs x = G.outs x := by
        intro x
        rw [hG1]
        by_cases hd : n ∈ G.dom
        · simp [hd]
        · simp only [hd, if_false, GState.addKey]
          by_cases hxn : x = n
          · subst hxn
            exact (hinv.outs_out x hd) ▸ (by simp)
          · simp [hxn]
      have hG1ins : ∀ x, G1.ins x = G.ins x := by
        intro x
        rw [hG1]
        by_cases hd : n ∈ G.dom
        · simp [hd]
        · simp only [hd, if_false, GState.addKey]
          by_cases hxn : x = n
          · subst hxn
            exact (hinv.ins_out x hd) ▸ (by simp)
          · simp [hxn]
      have hn1 : n ∈ G1.dom := by
        rw [hG1dom]
        exact Finset.mem_insert_self n G.dom
      have hout1 : ∀ x, x ∉ G1.dom → G1.outs x = ∅ ∧ G1.ins x = ∅ := by
        intro x hx
        rw [hG1dom] at hx
        have hxd : x ∉ G.dom := fun hc => hx (Finset.mem_insert_of_mem hc)
        exact ⟨(hG1outs x).trans (hinv.outs_out x hxd),
          (hG1ins x).trans (hinv.ins_out x hxd)⟩
      obtain ⟨hdom2, houtn2, houts2, hins2m, hins2n⟩ :=
        discoverStep_fold_G n ms G1 [] hn1 hout1
      set G2 := (ms.foldl (discoverStep n) (G1, [])).1 with hG2
      have hq2 : (ms.foldl (discoverStep n) (G1, [])).2 = ms := by
        rw [discoverStep_fold_queue]
        simp
      rw [hq2] at h
      have hdom2' : G2.dom = insert n G.dom ∪ ms.toFinset := by
        rw [hdom2, hG1dom]
      have houtn2' : G2.outs n = G.outs n ∪ ms.toFinset := by
        rw [houtn2, hG1outs]
      have houts2' : ∀ x, x ≠ n → G2.outs x = G.outs x := by
        intro x hx
        rw [houts2 x hx, hG1outs]
      have hins2m' : ∀ x, x ∈ ms → G2.ins x = insert n (G.ins x) := by
        intro x hx
        rw [hins2m x hx, hG1ins]
      have hins2n' : ∀ x, x ∉ ms → G2.ins x = G.ins x := by
        intro x hx
        rw [hins2n x hx, hG1ins]
      have hreach_n : ReachableFrom w roots n :=
        hinv.reach n (Or.inr (List.mem_cons_self n rest))
      have hdom_mono : ∀ x, x ∈ G.dom → x ∈ G2.dom := by
        intro x hx
        rw [hdom2']
        exact Finset.mem_union_left _ (Finset.mem_insert_of_mem hx)
      have hins_mono : ∀ x p, p ∈ G.ins x → p ∈ G2.ins x := by
        intro x p hp
        by_cases hx : x ∈ ms
        · rw [hins2m' x hx]
          exact Finset.mem_insert_of_mem hp
        · rw [hins2n' x hx]
          exact hp
      refine ih _ _ _ h ⟨?_, ?_, ?_, ?_, ?_, ?_, ?_⟩
      · -- roots_ok
        intro r hr
        rcases hinv.roots_ok r hr with hd | hq
        · exact Or.inl (hdom_mono r hd)
        · rcases List.mem_cons.mp hq with rfl | hq'
          · refine Or.inl ?_
            rw [hdom2']
            exact Finset.mem_union_left _ (Finset.mem_insert_self r G.dom)
          · exact Or.inr (List.mem_append_left ms hq')
      · -- dom_pending
        intro x hx
        rw [hdom2'] at hx
        rcases Finset.mem_union.mp hx with hx' | hxm
        · rcases Finset.mem_insert.mp hx' with rfl | hxd
          · refine Or.inl ⟨?_, ?_⟩
            · rw [houtn2', ← hms]
              exact Finset.union_eq_right.mpr (hinv.outs_sub x)
            · intro m hm
              rw [← hms] at hm
              refine ⟨?_, ?_⟩
              · rw [hdom2']
                exact Finset.mem_union_right _ (List.mem_toFinset.mpr hm)
              · rw [hins2m' m hm]
                exact Finset.mem_insert_self x (G.ins m)
          · rcases hinv.dom_pending x hxd with ⟨ho, hsucc⟩ | hq
            · by_cases hxn : x = n
              · subst hxn
                refine Or.inl ⟨?_, ?_⟩
                · rw [houtn2', ← hms]
                  exact Finset.union_eq_right.mpr (hinv.outs_sub x)
                · intro m hm
                  rw [← hms] at hm
                  exact ⟨by
                    rw [hdom2']
                    exact Finset.mem_union_right _ (List.mem_toFinset.mpr hm),
                    by
                    rw [hins2m' m hm]
                    exact Finset.mem_insert_self x (G.ins m)⟩
              · refine Or.inl ⟨?_, ?_⟩
                · rw [houts2' x hxn]
                  exact ho
                · intro m hm
                  exact ⟨hdom_mono m (hsucc m hm).1, hins_mono m x (hsucc m hm).2⟩
            · rcases List.mem_cons.mp hq with rfl | hq'
              · refine Or.inl ⟨?_, ?_⟩
                · rw [houtn2', ← hms]
                  exact Finset.union_eq_right.mpr (hinv.outs_sub x)
                · intro m hm
                  rw [← hms] at hm
                  exact ⟨by
                    rw [hdom2']
                    exact Finset.mem_union_right _ (List.mem_toFinset.mpr hm),
                    by
                    rw [hins2m' m hm]
                    exact Finset.mem_insert_self x (G.ins m)⟩
              · exact Or.inr (List.mem_append_left ms hq')
        · exact Or.inr (List.mem_append_right rest (List.mem_toFinset.mp hxm))
      · -- outs_sub
        intro x
        by_cases hxn : x = n
        · subst hxn
          rw [houtn2']
          intro y hy
          rcases Finset.mem_union.mp hy with hy' | hy'
          · exact hinv.outs_sub x hy'
          · exact hy'
        · rw [houts2' x hxn]
          exact hinv.outs_sub x
      · -- ins_sub
        intro m p hp
        by_cases hm : m ∈ ms
        · rw [hins2m' m hm] at hp
          rcases Finset.mem_insert.mp hp with rfl | hp'
          · refine ⟨?_, ?_⟩
            · rw [hdom2']
              exact Finset.mem_union_left _ (Finset.mem_insert_self p G.dom)
            · rw [← hms]
              exact hm
          · exact ⟨hdom_mono p (hinv.ins_sub m p hp').1, (hinv.ins_sub m p hp').2⟩
        · rw [hins2n' m hm] at hp
          exact ⟨hdom_mono p (hinv.ins_sub m p hp).1, (hinv.ins_sub m p hp).2⟩
      · -- outs_out
        intro x hx
        rw [hdom2'] at hx
        have hxn : x ≠ n := fun hc =>
          hx (hc ▸ Finset.mem_union_left _ (Finset.mem_insert_self x G.dom))
        have hxd : x ∉ G.dom := fun hc =>
          hx (Finset.mem_union_left _ (Finset.mem_insert_of_mem hc))
        rw [houts2' x hxn]
        exact hinv.outs_out x hxd
      · -- ins_out
        intro x hx
        rw [hdom2'] at hx
        have hxm : x ∉ ms := fun hc =>
          hx (Finset.mem_union_right _ (List.mem_toFinset.mpr hc))
        have hxd : x ∉ G.dom := fun hc =>
          hx (Finset.mem_union_left _ (Finset.mem_insert_of_mem hc))
        rw [hins2n' x hxm]
        exact hinv.ins_out x hxd
      · -- reach
        intro x hx
        rcases hx with hx | hx
        · rw [hdom2'] at hx
          rcases Finset.mem_union.mp hx with hx' | hx'
          · rcases Finset.mem_insert.mp hx' with rfl | hxd
            · exact hreach_n
            · exact hinv.reach x (Or.inl hxd)
          · obtain ⟨r, hr, hrtg⟩ := hreach_n
            exact ⟨r, hr, hrtg.tail (List.mem_toFinset.mp hx')⟩
        · rcases List.mem_append.mp hx with hx' | hx'
          · exact hinv.reach x (Or.inr (List.mem_cons_of_mem n hx'))
          · obtain ⟨r, hr, hrtg⟩ := hreach_n
            exact ⟨r, hr, hrtg.tail hx'⟩

/-- Specification of a finished discovery run started from the fed
input nodes on the empty dictionary. -/
lemma discover_spec {w : World} {roots : List Nat} {fuel : Nat} {G : GState}
    (h : discover w fuel roots GState.empty = some G) : DiscSpec w roots G :=
  discSpec_of_inv (discover_inv fuel roots GState.empty G h (discInv_init w roots))

/-! ### The drain loop: successor processing -/

lemma removeOut_ok {G : GState} {n m : Nat} {G' : GState}
    (h : G.removeOut n m = Except.ok G') :
    n ∈ G.dom ∧ m ∈ G.outs n ∧ G'.dom = G.dom ∧ (∀ x, G'.ins x = G.ins x) ∧
    G'.outs n = (G.outs n).erase m ∧ (∀ x, x ≠ n → G'.outs x = G.outs x) := by
  unfold GState.removeOut at h
  by_cases hn : n ∈ G.dom
  · rw [if_pos hn] at h
    by_cases hm : m ∈ G.outs n
    · rw [if_pos hm] at h
      injection h with h
      subst h
      exact ⟨hn, hm, rfl, fun _ => rfl, by simp, fun x hx => by simp [hx]⟩
    · rw [if_neg hm] at h
      cases h
  · rw [if_neg hn] at h
    cases h

lemma removeIn_ok {G : GState} {m n : Nat} {G' : GState}
    (h : G.removeIn m n = Except.ok G') :
    m ∈ G.dom ∧ n ∈ G.ins m ∧ G'.dom = G.dom ∧ (∀ x, G'.outs x = G.outs x) ∧
    G'.ins m = (G.ins m).erase n ∧ (∀ x, x ≠ m → G'.ins x = G.ins x) := by
  unfold GState.removeIn at h
  by_cases hm : m ∈ G.dom
  · rw [if_pos hm] at h
    by_cases hn : n ∈ G.ins m
    · rw [if_pos hn] at h
      injection h with h
      subst h
      exact ⟨hm, hn, rfl, fun _ => rfl, by simp, fun x hx => by simp [hx]⟩
    · rw [if_neg hn] at h
      cases h
  · rw [if_neg hm] at h
    cases h

lemma removeOut_total {G : GState} {n m : Nat} (hn : n ∈ G.dom)
    (hm : m ∈ G.outs n) :
    G.removeOut n m = Except.ok
      { G with outs := fun x => if x = n then (G.outs n).erase m else G.outs x } := by
  unfold GState.removeOut
  rw [if_pos hn, if_pos hm]

lemma removeIn_total {G : GState} {m n : Nat} (hm : m ∈ G.dom)
    (hn : n ∈ G.ins m) :
    G.removeIn m n = Except.ok
      { G with ins := fun x => if x = m then (G.ins m).erase n else G.ins x } := by
  unfold GState.removeIn
  rw [if_pos hm, if_pos hn]

/-- Inversion of a successful `processSuccs`: one bind step. -/
lemma processSuccs_cons_ok {n m : Nat} {ms : List Nat} {G : GState}
    {S : Finset Nat} {G' : GState} {S' : Finset Nat}
    (h : processSuccs n (m :: ms) G S = Except.ok (G', S')) :
    ∃ Ga Gb, G.removeOut n m = Except.ok Ga ∧ Ga.removeIn m n = Except.ok Gb ∧
      processSuccs n ms Gb
        (if (Gb.ins m).card = 0 then insert m S else S) = Except.ok (G', S') := by
  unfold processSuccs at h
  simp only [bind, Except.bind] at h
  rcases ho : G.removeOut n m with e | Ga <;> rw [ho] at h <;> simp only [] at h
  · cases h
  · rcases hi : Ga.removeIn m n with e | Gb <;> rw [hi] at h <;> simp only [] at h
    · cases h
    · exact ⟨Ga, Gb, rfl, hi, h⟩

/-- In a successful `processSuccs`, every processed successor was present
in the emitted node's outgoing set at its turn; hence the successor list
had no duplicates. -/
lemma processSuccs_ok_mem {n : Nat} :
    ∀ {ms : List Nat} {G : GState} {S : Finset Nat} {G' : GState} {S' : Finset Nat},
      processSuccs n ms G S = Except.ok (G', S') → ∀ m ∈ ms, m ∈ G.outs n := by
  intro ms
  induction ms with
  | nil => intro G S G' S' _ m hm; cases hm
  | cons m ms ih =>
    intro G S G' S' h x hx
    obtain ⟨Ga, Gb, ho, hi, hrec⟩ := processSuccs_cons_ok h
    obtain ⟨hn, hm, _, _, hGaoutn, _⟩ := removeOut_ok ho
    obtain ⟨_, _, _, hGbouts, _, _⟩ := removeIn_ok hi
    rcases List.mem_cons.mp hx with rfl | hx'
    · exact hm
    · have := ih hrec x hx'
      rw [hGbouts, hGaoutn] at this
      exact Finset.mem_of_mem_erase this

lemma processSuccs_ok_nodup {n : Nat} :
    ∀ {ms : List Nat} {G : GState} {S : Finset Nat} {G' : GState} {S' : Finset Nat},
      processSuccs n ms G S = Except.ok (G', S') → ms.Nodup := by
  intro ms
  induction ms with
  | nil => intro G S G' S' _; exact List.nodup_nil
  | cons m ms ih =>
    intro G S G' S' h
    obtain ⟨Ga, Gb, ho, hi, hrec⟩ := processSuccs_cons_ok h
    obtain ⟨hn, hm, _, _, hGaoutn, _⟩ := removeOut_ok ho
    obtain ⟨_, _, _, hGbouts, _, _⟩ := removeIn_ok hi
    refine List.nodup_cons.mpr ⟨?_, ih hrec⟩
    intro hmem
    have := processSuccs_ok_mem hrec m hmem
    rw [hGbouts, hGaoutn] at this
    exact Finset.not_mem_erase m (G.outs n) this

/-- Full characterisation of a successful `processSuccs` run. -/
lemma processSuccs_ok_spec {n : Nat} :
    ∀ {ms : List Nat} {G : GState} {S : Finset Nat} {G' : GState} {S' : Finset Nat},
      processSuccs n ms G S = Except.ok (G', S') →
      G'.dom = G.dom ∧
      G'.outs n = G.outs n \ ms.toFinset ∧
      (∀ x, x ≠ n → G'.outs x = G.outs x) ∧
      (∀ m ∈ ms, G'.ins m = (G.ins m).erase n) ∧
      (∀ m, m ∉ ms → G'.ins m = G.ins m) ∧
      S' = S ∪ (ms.filter (fun m => ((G.ins m).erase n).card = 0)).toFinset := by
  intro ms
  induction ms with
  | nil =>
    intro G S G' S' h
    unfold processSuccs at h
    injection h with h
    injection h with h1 h2
    subst h1
    subst h2
    refine ⟨rfl, by simp, fun _ _ => rfl, ?_, fun _ _ => rfl, by simp⟩
    intro m hm
    cases hm
  | cons m ms ih =>
    intro G S G' S' h
    have hnd := processSuccs_ok_nodup h
    have hmnotms : m ∉ ms := (List.nodup_cons.mp hnd).1
    obtain ⟨Ga, Gb, ho, hi, hrec⟩ := processSuccs_cons_ok h
    obtain ⟨hn, hm, hGadom, hGains, hGaoutn, hGaouts⟩ := removeOut_ok ho
    obtain ⟨hmdom, hnin, hGbdom, hGbouts, hGbinm, hGbins⟩ := removeIn_ok hi
    obtain ⟨ihdom, ihoutn, ihouts, ihins_mem, ihins_nmem, ihS⟩ := ih hrec
    have hGbinsix : ∀ x, x ≠ m → Gb.ins x = G.ins x := by
      intro x hx
      rw [hGbins x hx, hGains x]
    have hGbinm' : Gb.ins m = (G.ins m).erase n := by
      rw [hGbinm, hGains m]
    refine ⟨?_, ?_, ?_, ?_, ?_, ?_⟩
    · rw [ihdom, hGbdom, hGadom]
    · rw [ihoutn, hGbouts, hGaoutn]
      ext y
      simp only [Finset.mem_sdiff, Finset.mem_erase, List.toFinset_cons,
        Finset.mem_insert, List.mem_toFinset]
      tauto
    · intro x hx
      rw [ihouts x hx, hGbouts, hGaouts x hx]
    · intro x hx
      rcases List.mem_cons.mp hx with rfl | hx'
      · rw [ihins_nmem x hmnotms, hGbinm']
      · have hxm : x ≠ m := fun hc => hmnotms (hc ▸ hx')
        rw [ihins_mem x hx', hGbinsix x hxm]
    · intro x hx
      have hxm : x ≠ m := fun hc => hx (hc ▸ List.mem_cons_self m ms)
      have hxms : x ∉ ms := fun hc => hx (List.mem_cons_of_mem m hc)
      rw [ihins_nmem x hxms, hGbinsix x hxm]
    · rw [ihS]
      have hfilter : ms.filter (fun y => ((Gb.ins y).erase n).card = 0) =
          ms.filter (fun y => ((G.ins y).erase n).card = 0) := by
        apply List.filter_congr
        intro y hy
        have hym : y ≠ m := fun hce => hmnotms (hce ▸ hy)
        rw [hGbinsix y hym]
      rw [hfilter, List.filter_cons]
      by_cases hc : ((G.ins m).erase n).card = 0
      · rw [if_pos (show (Gb.ins m).card = 0 by rw [hGbinm']; exact hc)]
        rw [if_pos (by simpa using hc)]
        ext y
        simp only [Finset.mem_union, Finset.mem_insert, List.mem_toFinset,
          List.toFinset_cons]
        tauto
      · rw [if_neg (show ¬ (Gb.ins m).card = 0 by rw [hGbinm']; exact hc)]
        rw [if_neg (by simpa using hc)]

/-- `processSuccs` succeeds whenever every successor is still present in
both edge sets and the successor list has no duplicates. -/
lemma processSuccs_total {n : Nat} :
    ∀ {ms : List Nat} {G : GState} (S : Finset Nat),
      n ∈ G.dom → (∀ m ∈ ms, m ∈ G.dom) → ms.Nodup →
      (∀ m ∈ ms, m ∈ G.outs n) → (∀ m ∈ ms, n ∈ G.ins m) →
      ∃ G' S', processSuccs n ms G S = Except.ok (G', S') := by
  intro ms
  induction ms with
  | nil =>
    intro G S _ _ _ _ _
    exact ⟨G, S, rfl⟩
  | cons m ms ih =>
    intro G S hn hdom hnd houts hins
    have hm0 : m ∈ m :: ms := List.mem_cons_self m ms
    set Ga : GState :=
      { G with outs := fun x => if x = n then (G.outs n).erase m else G.outs x }
      with hGa
    set Gb : GState :=
      { Ga with ins := fun x => if x = m then (Ga.ins m).erase n else Ga.ins x }
      with hGb
    have ho : G.removeOut n m = Except.ok Ga := removeOut_total hn (houts m hm0)
    have hi : Ga.removeIn m n = Except.ok Gb :=
      removeIn_total (hdom m hm0) (hins m hm0)
    have hmm : m ∉ ms := (List.nodup_cons.mp hnd).1
    obtain ⟨G', S', hrec⟩ :=
      ih (G := Gb) (if (Gb.ins m).card = 0 then insert m S else S)
        hn (fun x hx => hdom x (List.mem_cons_of_mem m hx))
        (List.nodup_cons.mp hnd).2
        (by
          intro x hx
          have hxm : x ≠ m := fun hc => hmm (hc ▸ hx)
          show x ∈ (if n = n then (G.outs n).erase m else G.outs n)
          rw [if_pos rfl]
          exact Finset.mem_erase.mpr ⟨hxm, houts x (List.mem_cons_of_mem m hx)⟩)
        (by
          intro x hx
          have hxm : x ≠ m := fun hc => hmm (hc ▸ hx)
          show n ∈ (if x = m then (Ga.ins m).erase n else Ga.ins x)
          rw [if_neg hxm]
          exact hins x (List.mem_cons_of_mem m hx))
    refine ⟨G', S', ?_⟩
    unfold processSuccs
    simp only [bind, Except.bind]
    rw [ho]
    simp only []
    rw [hi]
    simp only []
    simpa using hrec

/-! ### The drain loop: invariant -/

/-- Invariant of the drain loop over the original heap `w0`, the feed,
and the discovered node set `D`:  `S` is the ready set, `G` the current
bookkeeping state, `wt` the current heap and `L` the order emitted so
far. -/
structure DrainInv (w0 : World) (feed : Feed) (D : Finset Nat)
    (S : Finset Nat) (G : GState) (wt : World) (L : List Nat) : Prop where
  dom_eq : G.dom = D
  struct_eq : SameStruct wt w0
  val_spec : ∀ n, (wt n).value =
    if (w0 n).kind = Kind.input ∧ n ∈ L then lookupFeed feed n else (w0 n).value
  nodupL : L.Nodup
  L_sub : ∀ n ∈ L, n ∈ D
  outs_done : ∀ n ∈ L, G.outs n = ∅
  outs_todo : ∀ n ∈ D, n ∉ L → G.outs n = (w0 n).outbound.toFinset
  ins_spec : ∀ m, G.ins m = (D.filter (fun p => m ∈ (w0 p).outbound)) \ L.toFinset
  S_char : S = D.filter
    (fun x => x ∉ L ∧ ∀ p ∈ D, x ∈ (w0 p).outbound → p ∈ L)
  order : ∀ v ∈ L, ∀ p ∈ D, v ∈ (w0 p).outbound → p ∈ L ∧ L.indexOf p < L.indexOf v
  nodups_out : ∀ n ∈ L, (w0 n).outbound.Nodup
  fed_inputs : ∀ n ∈ L, (w0 n).kind = Kind.input → n ∈ feed.map Prod.fst

lemma drainInv_init {w : World} {feed : Feed} {G : GState}
    (spec : DiscSpec w (feed.map Prod.fst) G)
    (hfed : ∀ x r, r ∈ feed.map Prod.fst → r ∉ (w x).outbound) :
    DrainInv w feed G.dom ((feed.map Prod.fst).toFinset) G w [] := by
  refine ⟨rfl, sameStruct_refl w, by simp, List.nodup_nil, by simp, by simp,
    fun n hn _ => spec.outs_eq n hn, ?_, ?_, by simp, by simp, by simp⟩
  · intro m
    rw [spec.ins_eq m]
    simp
  · ext x
    simp only [List.mem_toFinset, Finset.mem_filter, List.not_mem_nil,
      not_false_iff, true_and]
    constructor
    · intro hx
      refine ⟨spec.roots_dom x hx, ?_⟩
      intro p hp hedge
      exact absurd hedge (hfed p x hx)
    · intro ⟨hxd, hnopred⟩
      obtain ⟨r, hr, hrtg⟩ := spec.dom_reach x hxd
      rcases Relation.ReflTransGen.cases_tail hrtg with heq | ⟨c, hrc, hcx⟩
      · exact heq ▸ hr
      · have hcd : c ∈ G.dom := reach_sub_dom spec c ⟨r, hr, hrc⟩
        exact absurd (hnopred c hcd hcx) (by simp)

/-- A successful feed lookup means the node is a key of the feed. -/
lemma lookupFeed_mem {feed : Feed} {n : Nat} {v : Val}
    (h : lookupFeed feed n = some v) : n ∈ feed.map Prod.fst := by
  unfold lookupFeed at h
  rcases hf : feed.find? (fun p => p.1 == n) with _ | a <;> rw [hf] at h
  · cases h
  · have ha := List.find?_some hf
    have hmem := List.mem_of_find?_eq_some hf
    rw [List.mem_map]
    refine ⟨a, hmem, ?_⟩
    simpa using ha

/-- One iteration of the drain loop (draw `n`, feed it, emit it,
release its outbound edges) preserves the invariant. -/
lemma drainInv_step {w0 : World} {feed : Feed} {D : Finset Nat}
    (hclosed : ∀ n ∈ D, ∀ m ∈ (w0 n).outbound, m ∈ D)
    {S : Finset Nat} {G : GState} {wt : World} {L : List Nat} {n : Nat}
    {w1 : World} {G1 : GState} {S2 : Finset Nat}
    (hinv : DrainInv w0 feed D S G wt L)
    (hnS : n ∈ S)
    (hf : feedStep feed wt n = Except.ok w1)
    (hps : processSuccs n ((w1 n).outbound) G (S.erase n) = Except.ok (G1, S2)) :
    DrainInv w0 feed D S2 G1 w1 (L ++ [n]) := by
  have hnfilter := hnS
  rw [hinv.S_char, Finset.mem_filter] at hnfilter
  have hnD : n ∈ D := hnfilter.1
  have hnL : n ∉ L := hnfilter.2.1
  have hnpreds : ∀ p ∈ D, n ∈ (w0 p).outbound → p ∈ L := hnfilter.2.2
  have hstruct1 : SameStruct w1 w0 := (feedStep_sameStruct hf).trans hinv.struct_eq
  have hmsq : (w1 n).outbound = (w0 n).outbound := (hstruct1 n).2.2
  rw [hmsq] at hps
  have hkind : (wt n).kind = (w0 n).kind := (hinv.struct_eq n).1
  have hnselfout : n ∉ (w0 n).outbound := fun hc => hnL (hnpreds n hnD hc)
  have hval1 : ∀ x, (w1 x).value =
      if (w0 x).kind = Kind.input ∧ x ∈ L ++ [n] then lookupFeed feed x
      else (w0 x).value := by
    rcases feedStep_ok hf with ⟨hk, v, hl, hw1⟩ | ⟨hk, hw1⟩
    · subst hw1
      intro x
      by_cases hx : x = n
      · rw [hx]
        rw [setValue_apply_self]
        show some v = _
        rw [if_pos ⟨hkind ▸ hk, by simp⟩, hl]
      · rw [setValue_apply_ne wt n _ x hx, hinv.val_spec x]
        by_cases hcond : (w0 x).kind = Kind.input ∧ x ∈ L
        · rw [if_pos hcond, if_pos ⟨hcond.1, List.mem_append_left [n] hcond.2⟩]
        · rw [if_neg hcond, if_neg (fun hc => hcond ⟨hc.1, by
            rcases List.mem_append.mp hc.2 with h' | h'
            · exact h'
            · exact absurd (List.mem_singleton.mp h') hx⟩)]
    · subst hw1
      intro x
      rw [hinv.val_spec x]
      by_cases hx : x = n
      · rw [hx]
        have hne : ¬ ((w0 n).kind = Kind.input) := fun hc => hk (hkind.trans hc)
        rw [if_neg (fun hc => hne hc.1), if_neg (fun hc => hne hc.1)]
      · by_cases hcond : (w0 x).kind = Kind.input ∧ x ∈ L
        · rw [if_pos hcond, if_pos ⟨hcond.1, List.mem_append_left [n] hcond.2⟩]
        · rw [if_neg hcond, if_neg (fun hc => hcond ⟨hc.1, by
            rcases List.mem_append.mp hc.2 with h' | h'
            · exact h'
            · exact absurd (List.mem_singleton.mp h') hx⟩)]
  obtain ⟨hdomP, houtnP, houtsP, hinsmP, hinsnP, hS2⟩ := processSuccs_ok_spec hps
  have hndms : (w0 n).outbound.Nodup := processSuccs_ok_nodup hps
  have houtn : G.outs n = (w0 n).outbound.toFinset := hinv.outs_todo n hnD hnL
  have hnodup1 : (L ++ [n]).Nodup := by
    refine List.Nodup.append hinv.nodupL (List.nodup_singleton n) ?_
    intro a ha hb
    rw [List.mem_singleton] at hb
    exact hnL (hb ▸ ha)
  refine ⟨hdomP.trans hinv.dom_eq, hstruct1, hval1, hnodup1, ?_, ?_, ?_,
    ?_, ?_, ?_, ?_, ?_⟩
  · -- L_sub
    intro x hx
    rcases List.mem_append.mp hx with hx' | hx'
    · exact hinv.L_sub x hx'
    · rw [List.mem_singleton] at hx'
      exact hx' ▸ hnD
  · -- outs_done
    intro x hx
    rcases List.mem_append.mp hx with hx' | hx'
    · have hxn : x ≠ n := fun hc => hnL (hc ▸ hx')
      rw [houtsP x hxn]
      exact hinv.outs_done x hx'
    · rw [List.mem_singleton] at hx'
      subst hx'
      rw [houtnP, houtn]
      exact Finset.sdiff_self _
  · -- outs_todo
    intro x hxD hx
    have hxn : x ≠ n := fun hc => hx (hc ▸ List.mem_append_right L (by simp))
    have hxL : x ∉ L := fun hc => hx (List.mem_append_left [n] hc)
    rw [houtsP x hxn]
    exact hinv.outs_todo x hxD hxL
  · -- ins_spec
    intro m
    by_cases hm : m ∈ (w0 n).outbound
    · rw [hinsmP m hm, hinv.ins_spec m]
      ext y
      simp only [Finset.mem_erase, Finset.mem_sdiff, Finset.mem_filter,
        List.mem_toFinset, List.mem_append, List.mem_singleton]
      tauto
    · rw [hinsnP m hm, hinv.ins_spec m]
      ext y
      simp only [Finset.mem_sdiff, Finset.mem_filter, List.mem_toFinset,
        List.mem_append, List.mem_singleton]
      constructor
      · intro ⟨⟨hyD, hyedge⟩, hyL⟩
        refine ⟨⟨hyD, hyedge⟩, ?_⟩
        rintro (hc | rfl)
        · exact hyL hc
        · exact hm hyedge
      · intro ⟨⟨hyD, hyedge⟩, hyL⟩
        exact ⟨⟨hyD, hyedge⟩, fun hc => hyL (Or.inl hc)⟩
  · -- S_char
    rw [hS2, hinv.S_char]
    ext x
    simp only [Finset.mem_union, Finset.mem_erase, Finset.mem_filter,
      List.mem_toFinset, List.mem_filter, decide_eq_true_eq]
    constructor
    · rintro (⟨hxn, hxD, hxL, hxpreds⟩ | ⟨hxms, hxcard⟩)
      · refine ⟨hxD, ?_, ?_⟩
        · intro hc
          rcases List.mem_append.mp hc with hc' | hc'
          · exact hxL hc'
          · exact hxn (List.mem_singleton.mp hc')
        · intro p hp hedge
          exact List.mem_append_left [n] (hxpreds p hp hedge)
      · have hxD : x ∈ D := hclosed n hnD x hxms
        have hxL : x ∉ L := by
          intro hc
          exact hnL ((hinv.order x hc n hnD hxms).1)
        have hxn : x ≠ n := fun hxeq => hnselfout (hxeq ▸ hxms)
        have hsubset : (D.filter (fun p => x ∈ (w0 p).outbound)) \ L.toFinset ⊆ {n} := by
          rw [← hinv.ins_spec x]
          intro y hy
          rw [Finset.mem_singleton]
          by_contra hyn
          have : y ∈ (G.ins x).erase n := Finset.mem_erase.mpr ⟨hyn, hy⟩
          rw [Finset.card_eq_zero.mp hxcard] at this
          exact absurd this (Finset.not_mem_empty y)
        refine ⟨hxD, ?_, ?_⟩
        · intro hc
          rcases List.mem_append.mp hc with hc' | hc'
          · exact hxL hc'
          · exact hxn (List.mem_singleton.mp hc')
        · intro p hp hedge
          by_cases hpn : p = n
          · exact List.mem_append_right L (by simp [hpn])
          · by_cases hpL : p ∈ L
            · exact List.mem_append_left [n] hpL
            · have hpin : p ∈ (D.filter (fun q => x ∈ (w0 q).outbound)) \ L.toFinset :=
                Finset.mem_sdiff.mpr ⟨Finset.mem_filter.mpr ⟨hp, hedge⟩,
                  fun hc => hpL (List.mem_toFinset.mp hc)⟩
              exact absurd (Finset.mem_singleton.mp (hsubset hpin)) hpn
    · intro ⟨hxD, hxL1, hxpreds⟩
      have hxn : x ≠ n := by
        rintro rfl
        exact hxL1 (List.mem_append_right L (by simp))
      have hxL : x ∉ L := fun hc => hxL1 (List.mem_append_left [n] hc)
      by_cases hxms : x ∈ (w0 n).outbound
      · refine Or.inr ⟨hxms, ?_⟩
        rw [Finset.card_eq_zero, hinv.ins_spec x]
        rw [Finset.erase_eq, Finset.sdiff_eq_empty_iff_subset]
        intro y hy
        obtain ⟨hyf, hyL⟩ := Finset.mem_sdiff.mp hy
        obtain ⟨hyD, hyedge⟩ := Finset.mem_filter.mp hyf
        have := hxpreds y hyD hyedge
        rcases List.mem_append.mp this with hc | hc
        · exact absurd (List.mem_toFinset.mpr hc) hyL
        · rw [List.mem_singleton] at hc
          exact Finset.mem_singleton.mpr hc
      · refine Or.inl ⟨hxn, hxD, hxL, ?_⟩
        intro p hp hedge
        have := hxpreds p hp hedge
        rcases List.mem_append.mp this with hc | hc
        · exact hc
        · rw [List.mem_singleton] at hc
          subst hc
          exact absurd hedge hxms
  · -- order
    intro v hv p hp hedge
    rcases List.mem_append.mp hv with hv' | hv'
    · obtain ⟨hpL, hidx⟩ := hinv.order v hv' p hp hedge
      refine ⟨List.mem_append_left [n] hpL, ?_⟩
      rw [List.indexOf_append_of_mem hpL, List.indexOf_append_of_mem hv']
      exact hidx
    · rw [List.mem_singleton] at hv'
      rw [hv'] at hedge ⊢
      have hpL : p ∈ L := hnpreds p hp hedge
      refine ⟨List.mem_append_left [n] hpL, ?_⟩
      rw [List.indexOf_append_of_mem hpL, List.indexOf_append_of_not_mem hnL]
      calc L.indexOf p < L.length := List.indexOf_lt_length.mpr hpL
        _ ≤ L.length + List.indexOf n [n] := Nat.le_add_right _ _
  · -- nodups_out
    intro x hx
    rcases List.mem_append.mp hx with hx' | hx'
    · exact hinv.nodups_out x hx'
    · rw [List.mem_singleton] at hx'
      exact hx' ▸ hndms

  · -- fed_inputs
    intro x hx hkx
    rcases List.mem_append.mp hx with hx' | hx'
    · exact hinv.fed_inputs x hx' hkx
    · rw [List.mem_singleton] at hx'
      rw [hx'] at hkx ⊢
      rcases feedStep_ok hf with ⟨hk2, v, hl, _⟩ | ⟨hk2, _⟩
      · exact lookupFeed_mem hl
      · exact absurd (hkind.trans hkx) hk2

/-- The drain loop preserves its invariant; a successful run ends with
an empty ready set. -/
lemma drain_inv {pick : Finset Nat → Nat} {w0 : World} {feed : Feed} {D : Finset Nat}
    (hpick : ∀ s : Finset Nat, s.Nonempty → pick s ∈ s)
    (hclosed : ∀ n ∈ D, ∀ m ∈ (w0 n).outbound, m ∈ D) :
    ∀ (fuel : Nat) {S : Finset Nat} {G : GState} {wt : World} {L L' : List Nat}
      {w' : World},
      drain pick feed fuel S G wt L = some (Except.ok (L', w')) →
      DrainInv w0 feed D S G wt L →
      ∃ G', DrainInv w0 feed D ∅ G' w' L' := by
  intro fuel
  induction fuel with
  | zero =>
    intro S G wt L L' w' h hinv
    obtain ⟨hS, hL, hw⟩ := drain_zero_inv h
    subst hL
    subst hw
    exact ⟨G, (Finset.card_eq_zero.mp hS) ▸ hinv⟩
  | succ fuel ih =>
    intro S G wt L L' w' h hinv
    by_cases hS : S.card = 0
    · obtain ⟨hL, hw⟩ := drain_empty_inv hS h
      subst hL
      subst hw
      exact ⟨G, (Finset.card_eq_zero.mp hS) ▸ hinv⟩
    · obtain ⟨w1, G1, S2, hf, hps, hrec⟩ := drain_ok_inv hS h
      have hSne : S.Nonempty := Finset.card_pos.mp (Nat.pos_of_ne_zero hS)
      have hnS : pick S ∈ S := hpick S hSne
      exact ih hrec (drainInv_step hclosed hinv hnS hf hps)
/-- In a finite nonempty set in which every element has a predecessor
inside the set, some element lies on a cycle. -/
lemma exists_cycle_of_all_have_pred {E : Nat → Nat → Prop} {U : Finset Nat}
    (hne : U.Nonempty) (h : ∀ u ∈ U, ∃ p ∈ U, E p u) :
    ∃ c ∈ U, Relation.TransGen E c c := by
  classical
  obtain ⟨u0, hu0⟩ := hne
  have hstep : ∀ u : {x // x ∈ U}, ∃ p : {x // x ∈ U}, E p.1 u.1 := by
    intro u
    obtain ⟨p, hpU, hpE⟩ := h u.1 u.2
    exact ⟨⟨p, hpU⟩, hpE⟩
  choose g hg using hstep
  set a : Nat → {x // x ∈ U} := fun k => g^[k] ⟨u0, hu0⟩ with ha
  have hstep' : ∀ k, E (a (k + 1)).1 (a k).1 := by
    intro k
    have : a (k + 1) = g (a k) := Function.iterate_succ_apply' g k _
    rw [this]
    exact hg (a k)
  have hchain : ∀ d k, Relation.TransGen E (a (k + d + 1)).1 (a k).1 := by
    intro d
    induction d with
    | zero => exact fun k => Relation.TransGen.single (hstep' k)
    | succ d ihd =>
      intro k
      exact (Relation.TransGen.single (hstep' (k + d + 1))).trans (ihd k)
  have hchain' : ∀ i j, i < j → Relation.TransGen E (a j).1 (a i).1 := by
    intro i j hij
    obtain ⟨d, rfl⟩ : ∃ d, j = i + d + 1 := ⟨j - i - 1, by omega⟩
    exact hchain d i
  obtain ⟨i, -, j, -, hij, heq⟩ :=
    Finset.exists_ne_map_eq_of_card_lt_of_maps_to
      (s := (Finset.univ : Finset (Fin (U.card + 1)))) (t := U)
      (by rw [Finset.card_univ, Fintype.card_fin]; omega)
      (f := fun k => (a k.val).1) (fun k _ => (a k.val).2)
  have hvalne : i.val ≠ j.val := fun hc => hij (Fin.ext hc)
  rcases Nat.lt_or_ge i.val j.val with hlt | hge
  · refine ⟨(a j.val).1, (a j.val).2, ?_⟩
    have := hchain' i.val j.val hlt
    rw [heq] at this
    exact this
  · have hlt : j.val < i.val := Nat.lt_of_le_of_ne hge (fun hc => hvalne hc.symm)
    refine ⟨(a i.val).1, (a i.val).2, ?_⟩
    have := hchain' j.val i.val hlt
    rw [← heq] at this
    exact this

/-- On an acyclic reachable subgraph, a finished drain has emitted every
discovered node. -/
lemma drain_complete {w0 : World} {roots : List Nat} {feed : Feed} {D : Finset Nat}
    {G : GState} {wfin : World} {L : List Nat}
    (hinv : DrainInv w0 feed D ∅ G wfin L)
    (hreach : ∀ n ∈ D, ReachableFrom w0 roots n)
    (hacyc : AcyclicOn w0 roots) :
    ∀ n ∈ D, n ∈ L := by
  by_contra hcon
  push_neg at hcon
  obtain ⟨n0, hn0D, hn0L⟩ := hcon
  have hUne : (D \ L.toFinset).Nonempty :=
    ⟨n0, Finset.mem_sdiff.mpr ⟨hn0D, fun hc => hn0L (List.mem_toFinset.mp hc)⟩⟩
  have hpred : ∀ u ∈ D \ L.toFinset, ∃ p ∈ D \ L.toFinset, edge w0 p u := by
    intro u hu
    obtain ⟨huD, huL⟩ := Finset.mem_sdiff.mp hu
    have huL' : u ∉ L := fun hc => huL (List.mem_toFinset.mpr hc)
    have hnot : ¬ (u ∉ L ∧ ∀ p ∈ D, u ∈ (w0 p).outbound → p ∈ L) := by
      intro hc
      have : u ∈ (∅ : Finset Nat) := by
        rw [hinv.S_char, Finset.mem_filter]
        exact ⟨huD, hc⟩
      exact Finset.not_mem_empty u this
    push_neg at hnot
    obtain ⟨p, hpD, hedge, hpL⟩ := hnot huL'
    exact ⟨p, Finset.mem_sdiff.mpr ⟨hpD, fun hc => hpL (List.mem_toFinset.mp hc)⟩, hedge⟩
  obtain ⟨c, hcU, hcyc⟩ := exists_cycle_of_all_have_pred hUne hpred
  have hcD : c ∈ D := (Finset.mem_sdiff.mp hcU).1
  exact hacyc c (hreach c hcD) hcyc

/-- Everything a successful `topological_sort` run guarantees: a finished
discovery state and a finished drain state over it. -/
lemma topological_sort_ok_master {pick : Finset Nat → Nat} {w : World} {feed : Feed}
    {f1 f2 : Nat} {L : List Nat} {w' : World}
    (hpick : ∀ s : Finset Nat, s.Nonempty → pick s ∈ s)
    (hfed : ∀ x r, r ∈ feed.map Prod.fst → r ∉ (w x).outbound)
    (hret : topological_sort pick w feed f1 f2 = some (Except.ok (L, w'))) :
    ∃ G0 G1, DiscSpec w (feed.map Prod.fst) G0 ∧
      DrainInv w feed G0.dom ∅ G1 w' L := by
  unfold topological_sort at hret
  simp only [] at hret
  rcases hd : discover w f1 (feed.map Prod.fst) GState.empty with _ | G0 <;>
    rw [hd] at hret <;> simp only [] at hret
  · cases hret
  · have spec := discover_spec hd
    obtain ⟨G1, hinv⟩ := drain_inv hpick (fun n hn m hm => spec.closed n hn m hm)
      f2 hret (drainInv_init spec hfed)
    exact ⟨G0, G1, spec, hinv⟩

/-! ### Helper facts about the demo graph, used by the witnesses -/

lemma pickMin_valid : ∀ s : Finset Nat, s.Nonempty → pickMin s ∈ s :=
  fun _ hs => pickMin_mem hs

lemma transGen_rank_lt {w : World} {r : Nat → Nat}
    (hr : ∀ a b, edge w a b → r a < r b) :
    ∀ {a b}, Relation.TransGen (edge w) a b → r a < r b := by
  intro a b h
  induction h with
  | single h' => exact hr _ _ h'
  | tail _ h' ih => exact ih.trans (hr _ _ h')

/-- A rank function increasing along every edge rules out cycles. -/
lemma acyclicOn_of_rank {w : World} (r : Nat → Nat)
    (hr : ∀ a b, edge w a b → r a < r b) (roots : List Nat) :
    AcyclicOn w roots :=
  fun _ _ hcyc => absurd (transGen_rank_lt hr hcyc) (lt_irrefl _)

lemma demoW_eq : ∀ x, demoW x =
    if x = 0 then ⟨Kind.input, [], [2], none⟩
    else if x = 1 then ⟨Kind.input, [], [2], none⟩
    else if x = 2 then ⟨Kind.add, [0, 1], [], none⟩
    else ⟨Kind.base, [], [], none⟩ := by
  intro x
  by_cases h0 : x = 0
  · rw [h0]
    rfl
  by_cases h1 : x = 1
  · rw [h1]
    rfl
  by_cases h2 : x = 2
  · rw [h2]
    rfl
  rw [if_neg h0, if_neg h1, if_neg h2]
  show (initNode demoW01 2 Kind.add [0, 1]) x = _
  rw [initNode_other (by simp [h0, h1]) h2]
  show (initNode (initNode baseWorld 0 Kind.input []) 1 Kind.input []) x = _
  rw [initNode_other (by simp) h1, initNode_other (by simp) h0]
  rfl

lemma demo_hfed : ∀ x r, r ∈ demoFeed.map Prod.fst → r ∉ (demoW x).outbound := by
  intro x r hr
  have hr01 : r = 0 ∨ r = 1 := by simpa [demoFeed] using hr
  rw [demoW_eq x]
  rcases hr01 with rfl | rfl <;> split_ifs <;> simp

lemma demo_rank : ∀ a b, edge demoW a b →
    (if a = 2 then 1 else 0) < (if b = 2 then 1 else 0) := by
  intro a b h
  unfold edge at h
  rw [demoW_eq a] at h
  split_ifs at h with h0 h1 h2
  · simp only [List.mem_singleton] at h
    subst h
    simp [h0]
  · simp only [List.mem_singleton] at h
    subst h
    simp [h1]
  · exact absurd h (List.not_mem_nil b)
  · exact absurd h (List.not_mem_nil b)

lemma demo_hacyc : AcyclicOn demoW (demoFeed.map Prod.fst) :=
  acyclicOn_of_rank _ demo_rank _

/-! ### Claims C1, C2 and C9 -/

/-- Claim C1: on an acyclic graph reachable from the fed input nodes
(whose inputs, per the data model, have no incoming edges), any sequence
returned by `topological_sort` — under any tie-breaking choice — is a
valid topological order: every predecessor of a listed node is listed
strictly earlier, i.e. every successor edge points from an earlier to a
later position. -/
theorem topological_sort_topo_order (pick : Finset Nat → Nat) (w : World)
    (feed : Feed) (f1 f2 : Nat) (L : List Nat) (w' : World)
    (hpick : ∀ s : Finset Nat, s.Nonempty → pick s ∈ s)
    (hfed : ∀ x r, r ∈ feed.map Prod.fst → r ∉ (w x).outbound)
    (hacyc : AcyclicOn w (feed.map Prod.fst))
    (hret : topological_sort pick w feed f1 f2 = some (Except.ok (L, w'))) :
    ∀ u v, u ∈ L → v ∈ (w u).outbound → v ∈ L ∧ L.indexOf u < L.indexOf v := by
  obtain ⟨G0, G1, spec, hinv⟩ := topological_sort_ok_master hpick hfed hret
  have hcomplete : ∀ n ∈ G0.dom, n ∈ L := drain_complete hinv spec.dom_reach hacyc
  intro u v hu hv
  have huD : u ∈ G0.dom := hinv.L_sub u hu
  have hvD : v ∈ G0.dom := spec.closed u huD v hv
  have hvL : v ∈ L := hcomplete v hvD
  exact ⟨hvL, (hinv.order v hvL u huD hv).2⟩

/-- Claim C1, witnessed on the demo graph under the least-element
tie-break. -/
theorem topological_sort_topo_order_w :
    ∃ L w', topological_sort pickMin demoW demoFeed 6 6 = some (Except.ok (L, w')) ∧
      ∀ u v, u ∈ L → v ∈ (demoW u).outbound → v ∈ L ∧ L.indexOf u < L.indexOf v := by
  obtain ⟨L, w', hret⟩ : ∃ L w', topological_sort pickMin demoW demoFeed 6 6 =
      some (Except.ok (L, w')) := ⟨_, _, rfl⟩
  exact ⟨L, w', hret, topological_sort_topo_order pickMin demoW demoFeed 6 6 L w'
    pickMin_valid demo_hfed demo_hacyc hret⟩

/-- Claim C2: on an acyclic graph, a returned order contains exactly the
nodes reachable from the fed input nodes along successor links, each
exactly once. -/
theorem topological_sort_reachable_once (pick : Finset Nat → Nat) (w : World)
    (feed : Feed) (f1 f2 : Nat) (L : List Nat) (w' : World)
    (hpick : ∀ s : Finset Nat, s.Nonempty → pick s ∈ s)
    (hfed : ∀ x r, r ∈ feed.map Prod.fst → r ∉ (w x).outbound)
    (hacyc : AcyclicOn w (feed.map Prod.fst))
    (hret : topological_sort pick w feed f1 f2 = some (Except.ok (L, w'))) :
    L.Nodup ∧ ∀ n, n ∈ L ↔ ReachableFrom w (feed.map Prod.fst) n := by
  obtain ⟨G0, G1, spec, hinv⟩ := topological_sort_ok_master hpick hfed hret
  have hcomplete : ∀ n ∈ G0.dom, n ∈ L := drain_complete hinv spec.dom_reach hacyc
  refine ⟨hinv.nodupL, ?_⟩
  intro n
  constructor
  · intro hn
    exact spec.dom_reach n (hinv.L_sub n hn)
  · intro hr
    exact hcomplete n (reach_sub_dom spec n hr)

/-- Claim C2, witnessed on the demo graph: the returned order is exactly
the reachable set 0, 1, 2, each once. -/
theorem topological_sort_reachable_once_w :
    ∃ L w', topological_sort pickMin demoW demoFeed 6 6 = some (Except.ok (L, w')) ∧
      L.Nodup ∧ ∀ n, n ∈ L ↔ ReachableFrom demoW (demoFeed.map Prod.fst) n := by
  obtain ⟨L, w', hret⟩ : ∃ L w', topological_sort pickMin demoW demoFeed 6 6 =
      some (Except.ok (L, w')) := ⟨_, _, rfl⟩
  exact ⟨L, w', hret, topological_sort_reachable_once pickMin demoW demoFeed 6 6 L w'
    pickMin_valid demo_hfed demo_hacyc hret⟩

/-- Claim C9: a successful sort mutates no graph structure — every
node's class tag, predecessor list and successor list are exactly as
before — and the only value slots it writes are those of the fed input
nodes, each of which appears exactly once in the output order and ends
with exactly its fed value; every other node's value slot is untouched. -/
theorem topological_sort_frame (pick : Finset Nat → Nat) (w : World)
    (feed : Feed) (f1 f2 : Nat) (L : List Nat) (w' : World)
    (hpick : ∀ s : Finset Nat, s.Nonempty → pick s ∈ s)
    (hfed : ∀ x r, r ∈ feed.map Prod.fst → r ∉ (w x).outbound)
    (hret : topological_sort pick w feed f1 f2 = some (Except.ok (L, w'))) :
    (∀ n, (w' n).kind = (w n).kind ∧ (w' n).inbound = (w n).inbound ∧
       (w' n).outbound = (w n).outbound) ∧
    (∀ n, (w n).kind = Kind.input → n ∈ feed.map Prod.fst →
       (w' n).value = lookupFeed feed n ∧ L.count n = 1) ∧
    (∀ n, ¬ ((w n).kind = Kind.input ∧ n ∈ feed.map Prod.fst) →
       (w' n).value = (w n).value) := by
  obtain ⟨G0, G1, spec, hinv⟩ := topological_sort_ok_master hpick hfed hret
  have hfedL : ∀ r, r ∈ feed.map Prod.fst → r ∈ L := by
    intro r hr
    by_contra hrL
    have hrD : r ∈ G0.dom := spec.roots_dom r hr
    have hmem : r ∈ G0.dom.filter
        (fun x => x ∉ L ∧ ∀ p ∈ G0.dom, x ∈ (w p).outbound → p ∈ L) :=
      Finset.mem_filter.mpr ⟨hrD, hrL, fun p _ hedge => absurd hedge (hfed p r hr)⟩
    rw [← hinv.S_char] at hmem
    exact Finset.not_mem_empty r hmem
  refine ⟨hinv.struct_eq, ?_, ?_⟩
  · intro n hk hn
    have hnL : n ∈ L := hfedL n hn
    refine ⟨?_, List.count_eq_one_of_mem hinv.nodupL hnL⟩
    rw [hinv.val_spec n, if_pos ⟨hk, hnL⟩]
  · intro n hn
    rw [hinv.val_spec n]
    by_cases hcond : (w n).kind = Kind.input ∧ n ∈ L
    · exact absurd ⟨hcond.1, hinv.fed_inputs n hcond.2 hcond.1⟩ hn
    · rw [if_neg hcond]

/-- Claim C9, witnessed on the demo graph: the edge structure is
untouched and the fed input 0 ends with its fed value 5. -/
theorem topological_sort_frame_w :
    ∃ L w', topological_sort pickMin demoW demoFeed 6 6 = some (Except.ok (L, w')) ∧
      (∀ n, (w' n).outbound = (demoW n).outbound) ∧ (w' 0).value = some 5 := by
  obtain ⟨L, w', hret⟩ : ∃ L w', topological_sort pickMin demoW demoFeed 6 6 =
      some (Except.ok (L, w')) := ⟨_, _, rfl⟩
  have h := topological_sort_frame pickMin demoW demoFeed 6 6 L w'
    pickMin_valid demo_hfed hret
  refine ⟨L, w', hret, fun n => (h.1 n).2.2, ?_⟩
  have hv := (h.2.1 0 (by decide) (by decide)).1
  rw [hv]
  rfl

/-! ### Claim C10: duplicate predecessor entries and set removal -/

lemma feedStep_error {feed : Feed} {w : World} {n : Nat} {e : Err}
    (h : feedStep feed w n = Except.error e) : e = Err.keyErrorFeed := by
  unfold feedStep at h
  by_cases hk : (w n).kind = Kind.input
  · rw [if_pos hk] at h
    rcases hl : lookupFeed feed n with _ | v <;> rw [hl] at h
    · injection h with h
      exact h.symm
    · cases h
  · rw [if_neg hk] at h
    cases h

/-- With construction-consistent edge counts, duplicate-free predecessor
lists on the reachable subgraph give duplicate-free successor lists
there. -/
lemma nodup_out_of_nodup_in {w : World} {roots : List Nat}
    (hcount : ∀ p m, ((w p).outbound).count m = ((w m).inbound).count p)
    (hnodupin : ∀ x, ReachableFrom w roots x → (w x).inbound.Nodup) :
    ∀ x, ReachableFrom w roots x → (w x).outbound.Nodup := by
  intro x hx
  rw [List.nodup_iff_count_le_one]
  intro m
  by_cases hm : m ∈ (w x).outbound
  · rw [hcount x m]
    have hmr : ReachableFrom w roots m := by
      obtain ⟨r, hr, hrtg⟩ := hx
      exact ⟨r, hr, hrtg.tail hm⟩
    exact List.nodup_iff_count_le_one.mp (hnodupin m hmr) x
  · rw [List.count_eq_zero_of_not_mem hm]
    omega

/-- When every discovered node has a duplicate-free successor list, the
drain loop never reaches the error branch of a set removal. -/
lemma drain_no_remove_err {pick : Finset Nat → Nat} {w0 : World} {feed : Feed}
    {D : Finset Nat}
    (hpick : ∀ s : Finset Nat, s.Nonempty → pick s ∈ s)
    (hclosed : ∀ n ∈ D, ∀ m ∈ (w0 n).outbound, m ∈ D)
    (hnodout : ∀ n ∈ D, (w0 n).outbound.Nodup) :
    ∀ (fuel : Nat) {S : Finset Nat} {G : GState} {wt : World} {L : List Nat},
      DrainInv w0 feed D S G wt L →
      drain pick feed fuel S G wt L ≠ some (Except.error Err.keyErrorRemove) := by
  intro fuel
  induction fuel with
  | zero =>
    intro S G wt L _ h
    unfold drain at h
    by_cases hS : S.card = 0
    · rw [if_pos hS] at h
      simp at h
    · rw [if_neg hS] at h
      cases h
  | succ fuel ih =>
    intro S G wt L hinv h
    by_cases hS : S.card = 0
    · unfold drain at h
      rw [if_pos hS] at h
      simp at h
    · unfold drain at h
      rw [if_neg hS] at h
      simp only [] at h
      have hSne : S.Nonempty := Finset.card_pos.mp (Nat.pos_of_ne_zero hS)
      have hnS : pick S ∈ S := hpick S hSne
      set n := pick S with hndef
      have hnfilter := hnS
      rw [hinv.S_char, Finset.mem_filter] at hnfilter
      have hnD : n ∈ D := hnfilter.1
      have hnL : n ∉ L := hnfilter.2.1
      rcases hfs : feedStep feed wt n with e | w1 <;> rw [hfs] at h <;>
        simp only [] at h
      · rw [feedStep_error hfs] at h
        injection h with h
        cases h
      · have hstruct1 : SameStruct w1 w0 :=
          (feedStep_sameStruct hfs).trans hinv.struct_eq
        have hmsq : (w1 n).outbound = (w0 n).outbound := (hstruct1 n).2.2
        obtain ⟨G1, S2, hps⟩ := @processSuccs_total n ((w0 n).outbound) G (S.erase n)
          (hinv.dom_eq ▸ hnD)
          (fun m hm => hinv.dom_eq ▸ hclosed n hnD m hm)
          (hnodout n hnD)
          (by
            intro m hm
            rw [hinv.outs_todo n hnD hnL]
            exact List.mem_toFinset.mpr hm)
          (by
            intro m hm
            rw [hinv.ins_spec m]
            exact Finset.mem_sdiff.mpr ⟨Finset.mem_filter.mpr ⟨hnD, hm⟩,
              fun hc => hnL (List.mem_toFinset.mp hc)⟩)
        rw [hmsq, hps] at h
        simp only [] at h
        exact ih (drainInv_step hclosed hinv hnS hfs (by rw [hmsq]; exact hps)) h

lemma demo_inbound_nodup : ∀ x, (demoW x).inbound.Nodup := by
  intro x
  rw [demoW_eq x]
  split_ifs <;> decide

lemma demo_hcount : ∀ p m, ((demoW p).outbound).count m = ((demoW m).inbound).count p := by
  intro p m
  rw [demoW_eq p, demoW_eq m]
  split_ifs <;> subst_vars <;>
    simp_all [List.count_cons, List.count_nil, List.count_eq_zero]

/-- Claim C10: (a) when every reachable node's predecessor list has no
duplicates (with edge counts as established by construction), the sorter
never raises the `KeyError` of an edge-set removal — that error branch is
unreachable; (b) when some reachable node's successor list does carry a
duplicate (as `Add(a, a)` produces) the sorter can never return normally
on an acyclic graph, because the second removal of the duplicated edge
fails; and (c) concretely, on `Add(a, a)` the sorter raises exactly the
removal `KeyError`. -/
theorem dup_pred_edge_removal (pick : Finset Nat → Nat) (w : World) (feed : Feed)
    (f1 f2 : Nat)
    (hpick : ∀ s : Finset Nat, s.Nonempty → pick s ∈ s)
    (hfed : ∀ x r, r ∈ feed.map Prod.fst → r ∉ (w x).outbound)
    (hcount : ∀ p m, ((w p).outbound).count m = ((w m).inbound).count p)
    (hnodupin : ∀ x, ReachableFrom w (feed.map Prod.fst) x → (w x).inbound.Nodup) :
    (topological_sort pick w feed f1 f2 ≠ some (Except.error Err.keyErrorRemove)) ∧
    (∀ (pick2 : Finset Nat → Nat) (w2 : World) (feed2 : Feed) (g1 g2 : Nat)
       (p : Nat) (L : List Nat) (w2' : World),
       (∀ s : Finset Nat, s.Nonempty → pick2 s ∈ s) →
       (∀ x r, r ∈ feed2.map Prod.fst → r ∉ (w2 x).outbound) →
       AcyclicOn w2 (feed2.map Prod.fst) →
       ReachableFrom w2 (feed2.map Prod.fst) p → ¬ (w2 p).outbound.Nodup →
       topological_sort pick2 w2 feed2 g1 g2 ≠ some (Except.ok (L, w2'))) ∧
    ((topological_sort pickMin dupW [(0, 7)] 6 6).map (Except.map Prod.fst) =
       some (Except.error Err.keyErrorRemove)) := by
  refine ⟨?_, ?_, by decide⟩
  · intro hcon
    unfold topological_sort at hcon
    simp only [] at hcon
    rcases hd : discover w f1 (feed.map Prod.fst) GState.empty with _ | G0 <;>
      rw [hd] at hcon <;> simp only [] at hcon
    · cases hcon
    · have spec := discover_spec hd
      have hnodout : ∀ n ∈ G0.dom, (w n).outbound.Nodup := fun n hn =>
        nodup_out_of_nodup_in hcount hnodupin n (spec.dom_reach n hn)
      exact drain_no_remove_err hpick (fun n hn m hm => spec.closed n hn m hm)
        hnodout f2 (drainInv_init spec hfed) hcon
  · intro pick2 w2 feed2 g1 g2 p L w2' hpick2 hfed2 hacyc2 hreachp hnodup hret
    obtain ⟨G0, G1, spec, hinv⟩ := topological_sort_ok_master hpick2 hfed2 hret
    have hpD : p ∈ G0.dom := reach_sub_dom spec p hreachp
    have hpL : p ∈ L := drain_complete hinv spec.dom_reach hacyc2 p hpD
    exact hnodup (hinv.nodups_out p hpL)

/-- Claim C10, witnessed on the duplicate-free demo graph (no removal
error can be raised) and on `Add(a, a)` (the removal error is raised). -/
theorem dup_pred_edge_removal_w :
    (topological_sort pickMin demoW demoFeed 6 6 ≠
       some (Except.error Err.keyErrorRemove)) ∧
    ((topological_sort pickMin dupW [(0, 7)] 6 6).map (Except.map Prod.fst) =
       some (Except.error Err.keyErrorRemove)) :=
  ⟨(dup_pred_edge_removal pickMin demoW demoFeed 6 6 pickMin_valid demo_hfed
      demo_hcount (fun x _ => demo_inbound_nodup x)).1,
   (dup_pred_edge_removal pickMin demoW demoFeed 6 6 pickMin_valid demo_hfed
      demo_hcount (fun x _ => demo_inbound_nodup x)).2.2⟩

/-! ### Claim C8: the output value does not depend on the tie-break -/

/-- Fuel-bounded denotational value of a node over a fixed heap: what the
forward pass computes for it, independently of any evaluation order. -/
def evalNode (w : World) : Nat → Nat → Option Val
  | 0, _ => none
  | d + 1, n =>
    match (w n).kind with
    | Kind.input => (w n).value
    | Kind.base => none
    | Kind.add =>
      match (w n).inbound with
      | x :: y :: _ =>
        match evalNode w d x, evalNode w d y with
        | some a, some b => some (a + b)
        | _, _ => none
      | _ => none

/-- An evaluation order in which every predecessor of a listed node is
listed strictly earlier. -/
def ValidOrder (w : World) (L : List Nat) : Prop :=
  L.Nodup ∧ ∀ i : Fin L.length, ∀ m ∈ (w (L.get i)).inbound,
    ∃ j : Fin L.length, j.val < i.val ∧ L.get j = m

/-- Over a valid order, the denotational value of the node at position
`i` is stable for every fuel above `i`. -/
lemma evalNode_stable {w : World} {L : List Nat} (hv : ValidOrder w L) :
    ∀ (i : Fin L.length) (d : Nat), i.val < d →
      evalNode w d (L.get i) = evalNode w (i.val + 1) (L.get i) := by
  suffices main : ∀ k (i : Fin L.length), i.val = k → ∀ d, i.val < d →
      evalNode w d (L.get i) = evalNode w (i.val + 1) (L.get i) by
    intro i d hd
    exact main i.val i rfl d hd
  intro k
  induction k using Nat.strong_induction_on with
  | _ k ihk =>
    intro i hik d hd
    obtain ⟨d', rfl⟩ : ∃ d', d = d' + 1 := ⟨d - 1, by omega⟩
    show evalNode w (d' + 1) (L.get i) = evalNode w (i.val + 1) (L.get i)
    unfold evalNode
    rcases hk : (w (L.get i)).kind
    · simp [hk]
    · simp [hk]
    · rcases hin : (w (L.get i)).inbound with _ | ⟨x, t⟩
      · simp [hk, hin]
      rcases t with _ | ⟨y, rest⟩
      · simp [hk, hin]
      obtain ⟨jx, hjx, hjxe⟩ := hv.2 i x (by rw [hin]; exact List.mem_cons_self x _)
      obtain ⟨jy, hjy, hjye⟩ := hv.2 i y
        (by rw [hin]; exact List.mem_cons_of_mem x (List.mem_cons_self y rest))
      have hex : evalNode w d' x = evalNode w i.val x := by
        have ha := ihk jx.val (by omega) jx rfl d' (by omega)
        have hb := ihk jx.val (by omega) jx rfl i.val (by omega)
        rw [hjxe] at ha hb
        exact ha.trans hb.symm
      have hey : evalNode w d' y = evalNode w i.val y := by
        have ha := ihk jy.val (by omega) jy rfl d' (by omega)
        have hb := ihk jy.val (by omega) jy rfl i.val (by omega)
        rw [hjye] at ha hb
        exact ha.trans hb.symm
      simp only [hk, hin]
      rw [hex, hey]

/-- Running the forward pass along any valid order computes, at every
listed node, its denotational value over the starting heap, and leaves
every unlisted node's value slot untouched. -/
lemma forwardList_go {w0 : World} {L : List Nat} (hv : ValidOrder w0 L) :
    ∀ (suf pre : List Nat), L = pre ++ suf →
      ∀ (wcur wend : World), SameStruct wcur w0 →
      (∀ j : Fin L.length, j.val < pre.length →
        (wcur (L.get j)).value = evalNode w0 (j.val + 1) (L.get j)) →
      (∀ n, n ∉ pre → (wcur n).value = (w0 n).value) →
      forwardList wcur suf = Except.ok wend →
      (∀ j : Fin L.length, (wend (L.get j)).value = evalNode w0 (j.val + 1) (L.get j)) ∧
      (∀ n, n ∉ L → (wend n).value = (w0 n).value) := by
  intro suf
  induction suf with
  | nil =>
    intro pre hsplit wcur wend hstruct hdone hrest hfl
    simp only [forwardList] at hfl
    injection hfl with hfl
    subst hfl
    constructor
    · intro j
      apply hdone j
      have h1 := j.isLt
      have h2 : L.length = pre.length := by rw [hsplit]; simp
      omega
    · intro m hm
      apply hrest
      intro hc
      exact hm (hsplit ▸ List.mem_append_left _ hc)
  | cons n suf ih =>
    intro pre hsplit wcur wend hstruct hdone hrest hfl
    simp only [forwardList, bind, Except.bind] at hfl
    rcases hfw : forward wcur n with e | wmid <;> rw [hfw] at hfl <;>
      simp only [] at hfl
    · exact absurd hfl (by simp)
    have hkcur : (wcur n).kind = (w0 n).kind := (hstruct n).1
    have hincur : (wcur n).inbound = (w0 n).inbound := (hstruct n).2.1
    have hlen : pre.length < L.length := by
      rw [hsplit]
      simp
    have hget : L.get ⟨pre.length, hlen⟩ = n := by
      have h1 : L.get ⟨pre.length, hlen⟩ = L[pre.length] := rfl
      rw [h1, List.getElem_of_eq hsplit hlen,
        List.getElem_append_right (le_refl pre.length)]
      simp
    have hnd := hsplit ▸ hv.1
    rw [List.nodup_append] at hnd
    have hnpre : n ∉ pre := fun hc => hnd.2.2 hc (List.mem_cons_self n suf)
    have hjn : ∀ j : Fin L.length, j.val ≠ pre.length → L.get j ≠ n := by
      intro j hj hc
      have : j = ⟨pre.length, hlen⟩ := by
        apply (hv.1.get_inj_iff).mp
        rw [hget, hc]
      exact hj (by rw [this])
    -- one evaluated node, by class
    rcases forward_ok_cases hfw with ⟨hk, rfl⟩ | ⟨hk, hadd⟩
    · -- Input: the heap is unchanged, the slot already holds the value
      have heval : evalNode w0 (pre.length + 1) n = (w0 n).value := by
        unfold evalNode
        simp only [show (w0 n).kind = Kind.input from hkcur ▸ hk]
      refine ih (pre ++ [n]) (by rw [hsplit]; simp) _ wend hstruct ?_ ?_ hfl
      · intro j hj
        rw [List.length_append, List.length_singleton] at hj
        by_cases hje : j.val = pre.length
        · have hjeq : j = ⟨pre.length, hlen⟩ := Fin.ext hje
          rw [hjeq, hget, hrest n hnpre]
          exact heval.symm
        · exact hdone j (by omega)
      · intro m hm
        exact hrest m (fun hc => hm (List.mem_append_left _ hc))
    · -- Add: the node's slot is set to the sum of its operands
      obtain ⟨x, y, rest, xv, yv, hin, hx, hy, hwmid⟩ := addForward_ok hadd
      have hin0 : (w0 n).inbound = x :: y :: rest := hincur ▸ hin
      obtain ⟨jx, hjx, hjxe⟩ := hv.2 ⟨pre.length, hlen⟩ x
        (by rw [hget, hin0]; exact List.mem_cons_self x _)
      obtain ⟨jy, hjy, hjye⟩ := hv.2 ⟨pre.length, hlen⟩ y
        (by rw [hget, hin0]; exact List.mem_cons_of_mem x (List.mem_cons_self y rest))
      have hxval : evalNode w0 pre.length x = some xv := by
        have h1 := hdone jx hjx
        rw [hjxe] at h1
        have h2 := evalNode_stable hv jx pre.length hjx
        rw [hjxe] at h2
        rw [h2, ← h1, hx]
      have hyval : evalNode w0 pre.length y = some yv := by
        have h1 := hdone jy hjy
        rw [hjye] at h1
        have h2 := evalNode_stable hv jy pre.length hjy
        rw [hjye] at h2
        rw [h2, ← h1, hy]
      have heval : evalNode w0 (pre.length + 1) n = some (xv + yv) := by
        unfold evalNode
        simp only [show (w0 n).kind = Kind.add from hkcur ▸ hk, hin0, hxval, hyval]
      subst hwmid
      refine ih (pre ++ [n]) (by rw [hsplit]; simp)
        (setValue wcur n (some (xv + yv))) wend
        ((setValue_sameStruct wcur n _).trans hstruct) ?_ ?_ hfl
      · intro j hj
        rw [List.length_append, List.length_singleton] at hj
        by_cases hje : j.val = pre.length
        · have hjeq : j = ⟨pre.length, hlen⟩ := Fin.ext hje
          rw [hjeq, hget, setValue_apply_self]
          show some (xv + yv) = _
          exact heval.symm
        · rw [setValue_apply_ne wcur n _ _ (hjn j hje)]
          exact hdone j (by omega)
      · intro m hm
        have hmn : m ≠ n := fun hc => hm (hc ▸ List.mem_append_right pre (by simp))
        rw [setValue_apply_ne wcur n _ m hmn]
        exact hrest m (fun hc => hm (List.mem_append_left _ hc))

lemma nodeData_eq {a b : NodeData} (h1 : a.kind = b.kind) (h2 : a.inbound = b.inbound)
    (h3 : a.outbound = b.outbound) (h4 : a.value = b.value) : a = b := by
  cases a
  cases b
  simp_all

lemma forward_pass_ok {out : Nat} {w : World} {L : List Nat} {u : World}
    {v : Option Val} (h : forward_pass out w L = Except.ok (u, v)) :
    forwardList w L = Except.ok u ∧ v = (u out).value := by
  unfold forward_pass at h
  rcases hf : forwardList w L with e | w1 <;> rw [hf] at h <;> simp only [] at h
  · cases h
  · injection h with h
    cases h
    exact ⟨rfl, rfl⟩

/-- A second concrete tie-breaking choice for `set.pop()`: the greatest
element.  Together with `pickMin` it witnesses that the result does not
depend on how ties are broken. -/
def pickMax (s : Finset Nat) : Nat :=
  if h : s.Nonempty then s.max' h else 0

lemma pickMax_valid : ∀ s : Finset Nat, s.Nonempty → pickMax s ∈ s := by
  intro s hs
  unfold pickMax
  rw [dif_pos hs]
  exact s.max'_mem hs

lemma demo_hcons : ∀ a b, a ∈ (demoW b).inbound → b ∈ (demoW a).outbound := by
  intro a b h
  rw [demoW_eq b] at h
  rw [demoW_eq a]
  split_ifs at h with h0 h1 h2
  · exact absurd h (List.not_mem_nil a)
  · exact absurd h (List.not_mem_nil a)
  · have ha : a = 0 ∨ a = 1 := by simpa using h
    rw [h2]
    rcases ha with rfl | rfl <;> simp
  · exact absurd h (List.not_mem_nil a)

lemma demo_hclosedin : ∀ x m, ReachableFrom demoW (demoFeed.map Prod.fst) x →
    m ∈ (demoW x).inbound → ReachableFrom demoW (demoFeed.map Prod.fst) m := by
  intro x m _ hm
  rw [demoW_eq x] at hm
  split_ifs at hm
  · exact absurd hm (List.not_mem_nil m)
  · exact absurd hm (List.not_mem_nil m)
  · have hm01 : m = 0 ∨ m = 1 := by simpa using hm
    rcases hm01 with rfl | rfl
    · exact ⟨0, by simp [demoFeed], Relation.ReflTransGen.refl⟩
    · exact ⟨1, by simp [demoFeed], Relation.ReflTransGen.refl⟩
  · exact absurd hm (List.not_mem_nil m)

/-- Claim C8: with the graph and the feed fixed, the value returned by
the sort-then-forward-pass pair is deterministic — two runs whose sorts
broke ties among simultaneously-ready nodes arbitrarily (any two valid
`pick` choices, any fuel) return the same output value.  The graph is
assumed well-formed as construction leaves it: edges consistent
(`hcons`), predecessors of reachable nodes reachable (`hclosedin`), fed
inputs without incoming edges, and the reachable subgraph acyclic. -/
theorem forward_pass_deterministic (pick1 pick2 : Finset Nat → Nat) (w : World)
    (feed : Feed) (f1 f2 g1 g2 out : Nat) (L1 L2 : List Nat)
    (w1 w2 u1 u2 : World) (v1 v2 : Option Val)
    (hpick1 : ∀ s : Finset Nat, s.Nonempty → pick1 s ∈ s)
    (hpick2 : ∀ s : Finset Nat, s.Nonempty → pick2 s ∈ s)
    (hfed : ∀ x r, r ∈ feed.map Prod.fst → r ∉ (w x).outbound)
    (hacyc : AcyclicOn w (feed.map Prod.fst))
    (hcons : ∀ a b, a ∈ (w b).inbound → b ∈ (w a).outbound)
    (hclosedin : ∀ x m, ReachableFrom w (feed.map Prod.fst) x →
      m ∈ (w x).inbound → ReachableFrom w (feed.map Prod.fst) m)
    (h1 : topological_sort pick1 w feed f1 f2 = some (Except.ok (L1, w1)))
    (h2 : topological_sort pick2 w feed g1 g2 = some (Except.ok (L2, w2)))
    (hp1 : forward_pass out w1 L1 = Except.ok (u1, v1))
    (hp2 : forward_pass out w2 L2 = Except.ok (u2, v2)) :
    v1 = v2 := by
  obtain ⟨G01, G11, spec1, hinv1⟩ := topological_sort_ok_master hpick1 hfed h1
  obtain ⟨G02, G12, spec2, hinv2⟩ := topological_sort_ok_master hpick2 hfed h2
  have hcomp1 : ∀ n ∈ G01.dom, n ∈ L1 := drain_complete hinv1 spec1.dom_reach hacyc
  have hcomp2 : ∀ n ∈ G02.dom, n ∈ L2 := drain_complete hinv2 spec2.dom_reach hacyc
  have hmemL1 : ∀ x, x ∈ L1 ↔ ReachableFrom w (feed.map Prod.fst) x := by
    intro x
    exact ⟨fun hx => spec1.dom_reach x (hinv1.L_sub x hx),
      fun hr => hcomp1 x (reach_sub_dom spec1 x hr)⟩
  have hmemL2 : ∀ x, x ∈ L2 ↔ ReachableFrom w (feed.map Prod.fst) x := by
    intro x
    exact ⟨fun hx => spec2.dom_reach x (hinv2.L_sub x hx),
      fun hr => hcomp2 x (reach_sub_dom spec2 x hr)⟩
  have hmem12 : ∀ x, x ∈ L1 ↔ x ∈ L2 :=
    fun x => (hmemL1 x).trans (hmemL2 x).symm
  have hw12 : w1 = w2 := by
    funext x
    apply nodeData_eq
    · exact ((hinv1.struct_eq x).1).trans ((hinv2.struct_eq x).1).symm
    · exact ((hinv1.struct_eq x).2.1).trans ((hinv2.struct_eq x).2.1).symm
    · exact ((hinv1.struct_eq x).2.2).trans ((hinv2.struct_eq x).2.2).symm
    · rw [hinv1.val_spec x, hinv2.val_spec x]
      by_cases hc : (w x).kind = Kind.input ∧ x ∈ L1
      · rw [if_pos hc, if_pos ⟨hc.1, (hmem12 x).mp hc.2⟩]
      · rw [if_neg hc, if_neg (fun hc2 => hc ⟨hc2.1, (hmem12 x).mpr hc2.2⟩)]
  have hvalid : ∀ (L : List Nat) (wq : World) (D : Finset Nat) (G : GState),
      DrainInv w feed D ∅ G wq L →
      (∀ x, x ∈ L ↔ ReachableFrom w (feed.map Prod.fst) x) →
      ValidOrder wq L := by
    intro L wq D G hinv hmemL
    refine ⟨hinv.nodupL, ?_⟩
    intro i m hm
    have hvL : L.get i ∈ L := L.get_mem i.val i.isLt
    rw [(hinv.struct_eq (L.get i)).2.1] at hm
    have hvreach : ReachableFrom w (feed.map Prod.fst) (L.get i) := (hmemL _).mp hvL
    have hmreach := hclosedin (L.get i) m hvreach hm
    have hmL : m ∈ L := (hmemL m).mpr hmreach
    have hedge : L.get i ∈ (w m).outbound := hcons m (L.get i) hm
    have hmD : m ∈ D := hinv.L_sub m hmL
    have horder := hinv.order (L.get i) hvL m hmD hedge
    refine ⟨⟨L.indexOf m, List.indexOf_lt_length.mpr hmL⟩, ?_, List.indexOf_get _⟩
    show L.indexOf m < i.val
    have hidx : L.indexOf (L.get i) = i.val := List.get_indexOf hinv.nodupL i
    rw [← hidx]
    exact horder.2
  have hvalid1 : ValidOrder w1 L1 := hvalid L1 w1 G01.dom G11 hinv1 hmemL1
  have hvalid2 : ValidOrder w2 L2 := hvalid L2 w2 G02.dom G12 hinv2 hmemL2
  have hlen12 : L1.length = L2.length := by
    have hts : L1.toFinset = L2.toFinset := by
      ext x
      simp only [List.mem_toFinset]
      exact hmem12 x
    calc L1.length = L1.toFinset.card := (List.toFinset_card_of_nodup hinv1.nodupL).symm
      _ = L2.toFinset.card := by rw [hts]
      _ = L2.length := List.toFinset_card_of_nodup hinv2.nodupL
  obtain ⟨hfl1, hv1eq⟩ := forward_pass_ok hp1
  obtain ⟨hfl2, hv2eq⟩ := forward_pass_ok hp2
  obtain ⟨hgo1, hframe1⟩ := forwardList_go hvalid1 L1 [] rfl w1 u1 (sameStruct_refl w1)
    (fun j hj => absurd hj (by simp)) (fun _ _ => rfl) hfl1
  obtain ⟨hgo2, hframe2⟩ := forwardList_go hvalid2 L2 [] rfl w2 u2 (sameStruct_refl w2)
    (fun j hj => absurd hj (by simp)) (fun _ _ => rfl) hfl2
  rw [hv1eq, hv2eq]
  by_cases hout : out ∈ L1
  · have hout2 : out ∈ L2 := (hmem12 out).mp hout
    have hi1lt : L1.indexOf out < L1.length := List.indexOf_lt_length.mpr hout
    have hi2lt : L2.indexOf out < L2.length := List.indexOf_lt_length.mpr hout2
    have hget1 : L1.get ⟨L1.indexOf out, hi1lt⟩ = out := List.indexOf_get _
    have hget2 : L2.get ⟨L2.indexOf out, hi2lt⟩ = out := List.indexOf_get _
    have hga := hgo1 ⟨L1.indexOf out, hi1lt⟩
    rw [hget1] at hga
    have hgb := hgo2 ⟨L2.indexOf out, hi2lt⟩
    rw [hget2] at hgb
    have hs1 := evalNode_stable hvalid1 ⟨L1.indexOf out, hi1lt⟩ L1.length hi1lt
    rw [hget1] at hs1
    have hs2 := evalNode_stable hvalid2 ⟨L2.indexOf out, hi2lt⟩ L2.length hi2lt
    rw [hget2] at hs2
    rw [hga, hgb, ← hs1, ← hs2, hw12, hlen12]
  · have hout2 : out ∉ L2 := fun hc => hout ((hmem12 out).mpr hc)
    rw [hframe1 out hout, hframe2 out hout2, hw12]

set_option maxHeartbeats 1600000 in
/-- Claim C8, witnessed on the demo graph with the two opposite
tie-breaks: both runs return the same output value. -/
theorem forward_pass_deterministic_w :
    ∃ L1 w1 u1 v1 L2 w2 u2 v2,
      topological_sort pickMin demoW demoFeed 6 6 = some (Except.ok (L1, w1)) ∧
      forward_pass 2 w1 L1 = Except.ok (u1, v1) ∧
      topological_sort pickMax demoW demoFeed 6 6 = some (Except.ok (L2, w2)) ∧
      forward_pass 2 w2 L2 = Except.ok (u2, v2) ∧
      v1 = v2 := by
  obtain ⟨L1, w1, u1, v1, h1, hp1⟩ :
      ∃ L w' u v, topological_sort pickMin demoW demoFeed 6 6 =
          some (Except.ok (L, w')) ∧ forward_pass 2 w' L = Except.ok (u, v) :=
    ⟨_, _, _, _, rfl, rfl⟩
  obtain ⟨L2, w2, u2, v2, h2, hp2⟩ :
      ∃ L w' u v, topological_sort pickMax demoW demoFeed 6 6 =
          some (Except.ok (L, w')) ∧ forward_pass 2 w' L = Except.ok (u, v) :=
    ⟨_, _, _, _, rfl, rfl⟩
  exact ⟨L1, w1, u1, v1, L2, w2, u2, v2, h1, hp1, h2, hp2,
    forward_pass_deterministic pickMin pickMax demoW demoFeed 6 6 6 6 2 L1 L2
      w1 w2 u1 u2 v1 v2 pickMin_valid pickMax_valid demo_hfed demo_hacyc
      demo_hcons demo_hclosedin h1 h2 hp1 hp2⟩

end Miniflow
